import Mathlib

/-!
Verification development for the RAPID code analyzer (`rapid_analyzer.py`).

The Python source is shallowly embedded: strings are `List Char` (ASCII model
of Python's str operations), Python floats are modelled as `ℚ`, dicts are
association lists with first-match lookup and update-in-place semantics,
and sets are duplicate-free lists built by add-if-absent.  The WordNet
dictionary lookup is an external oracle in the source and is modelled as an
opaque boolean function parameter.
-/

namespace Rapid

/-- Strings are modelled as lists of characters (ASCII model of Python `str`). -/
abbrev Str := List Char

/-- Convert a Lean string literal to the embedded string type. -/
def toChars (s : String) : Str := s.data

/-- Python `str.lower()` (ASCII model, matching the analyzer's inputs). -/
def strLower (s : Str) : Str := s.map Char.toLower

/-- Python `str.upper()` (ASCII model). -/
def strUpper (s : Str) : Str := s.map Char.toUpper

/-- Python `str.lstrip()`. -/
def lstrip (s : Str) : Str := s.dropWhile Char.isWhitespace

/-- Python `str.rstrip()`. -/
def rstrip (s : Str) : Str := (s.reverse.dropWhile Char.isWhitespace).reverse

/-- Python `str.strip()`. -/
def pstrip (s : Str) : Str := rstrip (lstrip s)

/-- A `\w` word character of the regexes: alphanumeric or underscore (ASCII model). -/
def isWordChar (c : Char) : Bool := c.isAlphanum || c = '_'

/-- Consume a literal keyword case-insensitively, returning the remaining input
(the case-insensitive regex literals such as `PROC`, `MODULE`). -/
def stripCI : Str → Str → Option Str
  | [], s => some s
  | _ :: _, [] => none
  | p :: ps, c :: cs => if p.toLower = c.toLower then stripCI ps cs else none

/-- Consume `\s+` (at least one whitespace character) greedily. -/
def expectWs1 : Str → Option Str
  | [] => none
  | c :: rest => if c.isWhitespace then some (rest.dropWhile Char.isWhitespace) else none

/-- Consume `\w+` (at least one word character) greedily. -/
def expectWord1 : Str → Option Str
  | [] => none
  | c :: rest => if isWordChar c then some (rest.dropWhile isWordChar) else none

/-- Capture the identifier regex `[^\W\d_]\w*` (a letter followed by word
characters) at the head of the input, also returning the rest. -/
def takeIdent : Str → Option (Str × Str)
  | [] => none
  | c :: rest =>
    if c.isAlpha then some (c :: rest.takeWhile isWordChar, rest.dropWhile isWordChar)
    else none

/-- Worker for `findIdents`, structurally recursive on a fuel argument so
that concrete inputs evaluate inside the kernel.  Each step consumes at
least one character, so fuel equal to the input length never runs out. -/
def findIdentsAux : Nat → Str → List Str
  | 0, _ => []
  | _, [] => []
  | fuel + 1, c :: rest =>
    if isWordChar c then
      let run := c :: rest.takeWhile isWordChar
      let rest' := rest.dropWhile isWordChar
      if c.isAlpha then run :: findIdentsAux fuel rest' else findIdentsAux fuel rest'
    else findIdentsAux fuel rest

/-- Model of `re.findall(r"\b[^\W\d_]\w*\b", s)`: all maximal word-character runs that
start with a letter. -/
def findIdents (s : Str) : List Str := findIdentsAux s.length s

/-- Worker for `removeQuoted`, structurally recursive on a fuel argument
(fuel equal to the input length is always sufficient). -/
def removeQuotedAux : Nat → Str → Str
  | 0, s => s
  | _, [] => []
  | fuel + 1, c :: rest =>
    if c = '"' then
      match rest.dropWhile (· ≠ '"') with
      | [] => c :: rest
      | _ :: rest2 => removeQuotedAux fuel rest2
    else c :: removeQuotedAux fuel rest

/-- Model of `re.sub(r'"[^"]*"', "", s)`: delete every quoted string literal. -/
def removeQuoted (s : Str) : Str := removeQuotedAux s.length s

/-- Python `str.split("!", 1)[0]`: everything before the first `!`. -/
def beforeBang (s : Str) : Str := s.takeWhile (· ≠ '!')

/-- Substring containment, `needle in haystack` of Python. -/
def containsSub : Str → Str → Bool
  | [], needle => needle.isEmpty
  | c :: rest, needle => needle.isPrefixOf (c :: rest) || containsSub rest needle

/-- Association-list lookup, first match — Python dict indexing. -/
def alookup {α : Type} : List (Str × α) → Str → Option α
  | [], _ => none
  | (k, v) :: rest, key => if k = key then some v else alookup rest key

/-- Python dict assignment `d[k] = v`: update in place, else append. -/
def aset {α : Type} : List (Str × α) → Str → α → List (Str × α)
  | [], k, v => [(k, v)]
  | (k', v') :: rest, k, v =>
    if k' = k then (k, v) :: rest else (k', v') :: aset rest k v

/-- Python set add modelled on duplicate-free lists: append if absent. -/
def addUnique (l : List Str) (x : Str) : List Str := if x ∈ l then l else l ++ [x]

/-- Model of `defaultdict(set)` insertion `d[k].add(v)`. -/
def addToSetMap : List (Str × List Str) → Str → Str → List (Str × List Str)
  | [], k, v => [(k, [v])]
  | (k', vs) :: rest, k, v =>
    if k' = k then (k', addUnique vs v) :: rest else (k', vs) :: addToSetMap rest k v

/-- Code-point lexicographic comparison, the order used by Python `sorted`
on strings. -/
def strLe : Str → Str → Bool
  | [], _ => true
  | _ :: _, [] => false
  | a :: as, b :: bs =>
    if a.toNat < b.toNat then true
    else if b.toNat < a.toNat then false
    else strLe as bs

/-- Ordered insertion for `pySorted`. -/
def insertLe (x : Str) : List Str → List Str
  | [] => [x]
  | y :: ys => if strLe x y then x :: y :: ys else y :: insertLe x ys

/-- Python `sorted` on a list of strings (insertion sort; only the order of the
result matters, which any correct sort shares with CPython's sort). -/
def pySorted : List Str → List Str
  | [] => []
  | x :: xs => insertLe x (pySorted xs)

/-! ## Identifier splitting (`camel_split`, `split_identifier`) -/

/-- Model of `current[-1]` of the Python loop; the default is irrelevant because
`current` is always nonempty. -/
def lastD (s : Str) : Char := s.getLastD 'a'

/-- The loop body of `camel_split`, iterating over `s[1:]` while carrying
`result` and `current`.  The branch structure mirrors the Python source
(the two upper-case `elif`/`else` branches both extend `current`). -/
def camelAux : List Str → Str → Str → List Str
  | result, current, [] => result ++ [current]
  | result, current, ch :: rest =>
    if ch.isUpper then
      -- Case 1: current ends lowercase -> split (e.g. myVar)
      if !(lastD current).isUpper then
        camelAux (result ++ [current]) [ch] rest
      -- Case 2: stay in acronym (e.g. ML in XML)
      else if current.length > 1 && (lastD current).isUpper then
        camelAux result (current ++ [ch]) rest
      else
        camelAux result (current ++ [ch]) rest
    else
      -- Lowercase letter: break acronym, splitting off all but its last capital
      if (lastD current).isUpper && current.length > 1 then
        camelAux (result ++ [current.dropLast]) [lastD current, ch] rest
      else
        camelAux result (current ++ [ch]) rest

/-- Model of `camel_split`: split CamelCase words (`YAxis` → `Y`,`Axis`;
`XMLParser` → `XML`,`Parser`). -/
def camelSplit : Str → List Str
  | [] => []
  | c :: rest => camelAux [] [c] rest

/-- Split a string at every character satisfying `p`, keeping (possibly empty)
segments.  `splitOnPred (· = '_')` with empty segments skipped is
`re.split(r"_+", ·)` with empty parts skipped, and `splitOnPred Char.isDigit`
with empties skipped is `re.sub(r"\d+", "_", ·).split("_")` with empties
skipped, as in `split_identifier`. -/
def splitOnPred (p : Char → Bool) : Str → List Str
  | [] => [[]]
  | c :: rest =>
    if p c then [] :: splitOnPred p rest
    else
      match splitOnPred p rest with
      | [] => [[c]]
      | seg :: segs => (c :: seg) :: segs

/-- The axis tokens that `split_identifier` special-cases. -/
def axisWords : List Str := [toChars "xaxis", toChars "yaxis", toChars "zaxis"]

/-- Model of `split_identifier`: underscore and digit breaks, camel-case splitting,
lower-casing, and the `xaxis`/`yaxis`/`zaxis` special case
(`tokens.extend([s[0], "axis"])`). -/
def splitIdentifier (name : Str) : List Str :=
  let parts := splitOnPred (fun c => c = '_') name
  parts.flatMap fun part =>
    if part = [] then []
    else
      let chunks := splitOnPred Char.isDigit part
      chunks.flatMap fun chunk =>
        if chunk = [] then []
        else
          (camelSplit chunk).flatMap fun sRaw =>
            let s := strLower sRaw
            if s ∈ axisWords then [s.take 1, toChars "axis"]
            else [s]

/-! ## Naming scores (`variable_goodness`, `variable_name_score`) -/

/-- Model of `ALLOWED_SHORT_TOKENS` (the entry `"Via"` is kept verbatim from the source;
it can never match because tokens are lower-cased before the membership
test). -/
def allowedShortTokens : List Str :=
  [toChars "di", toChars "do", toChars "gi", toChars "go", toChars "ai", toChars "ao",
   toChars "in", toChars "on", toChars "p", toChars "t", toChars "w", toChars "l",
   toChars "n", toChars "s",
   toChars "via", toChars "Via", toChars "m", toChars "bool", toChars "plc",
   toChars "pre", toChars "off",
   toChars "with", toChars "from", toChars "x", toChars "y", toChars "z",
   toChars "ry", toChars "rz", toChars "rx",
   toChars "dir", toChars "calc", toChars "prog", toChars "pers", toChars "i",
   toChars "j", toChars "k", toChars "a",
   toChars "b", toChars "ok", toChars "at", toChars "for", toChars "over",
   toChars "under", toChars "front", toChars "back", toChars "cc", toChars "ct",
   toChars "v"]

/-- The per-token classification of `variable_goodness`: whitelist first
(regardless of length), then the length-3 cutoff, then the dictionary oracle.
The WordNet lookup `is_dictionary_word` is the opaque oracle `isWord`. -/
def tokenIsGood (isWord : Str → Bool) (t : Str) : Bool :=
  let tNorm := strLower t
  if tNorm ∈ allowedShortTokens then true
  else if tNorm.length < 3 then false
  else isWord tNorm

/-- Model of `variable_goodness`: fraction of good tokens, `0` when the identifier has
no tokens. -/
def variableGoodness (isWord : Str → Bool) (name : Str) : ℚ :=
  let tokens := splitIdentifier name
  if tokens = [] then 0
  else ((tokens.countP (tokenIsGood isWord) : ℚ)) / (tokens.length : ℚ)

/-- The bad tokens that `variable_goodness` accumulates for one identifier:
tokens that are not whitelisted and are either shorter than 3 characters or
rejected by the oracle. -/
def badTokensOf (isWord : Str → Bool) (name : Str) : List Str :=
  (splitIdentifier name).filter fun t => !(tokenIsGood isWord t)

/-- Model of `variable_name_score`: the mean of the per-identifier scores, `1.0`
(neutral) for an empty collection. -/
def variableNameScore (isWord : Str → Bool) (allVariables : List Str) : ℚ :=
  if allVariables = [] then 1
  else ((allVariables.map (variableGoodness isWord)).sum) / (allVariables.length : ℚ)

/-! ## Comment health (`comment_score`) -/

/-- Model of `comment_score`: piecewise-linear comment-ratio health on a 0–1 scale.
Python's float literals `0.06`, `0.25`, `0.60` are modelled as exact
rationals. -/
def commentScore (commentRatio : ℚ) : ℚ :=
  if commentRatio ≤ 0 then 0
  else if commentRatio < 6/100 then commentRatio / (6/100)
  else if commentRatio ≤ 25/100 then 1
  else if commentRatio ≥ 60/100 then 0
  else 1 - (commentRatio - 25/100) / (60/100 - 25/100)

/-! ## Line-pattern matchers (the scanner's anchored and searched regexes) -/

/-- Model of `^\s*KW\s+([^\W\d_]\w*)`, case-insensitive (the `MODULE` and `PROC`
header patterns). -/
def matchKwIdent (kw : Str) (line : Str) : Option Str :=
  (stripCI kw (line.dropWhile Char.isWhitespace)).bind fun r1 =>
    (expectWs1 r1).bind fun r2 =>
      (takeIdent r2).map Prod.fst

/-- Model of `^\s*FUNC\s+\w+\s+([^\W\d_]\w*)`, case-insensitive (return type then
function name). -/
def matchFuncHeader (line : Str) : Option Str :=
  (stripCI (toChars "FUNC") (line.dropWhile Char.isWhitespace)).bind fun r1 =>
    (expectWs1 r1).bind fun r2 =>
      (expectWord1 r2).bind fun r3 =>
        (expectWs1 r3).bind fun r4 =>
          (takeIdent r4).map Prod.fst

/-- Model of `^\s*(PERS|VAR|CONST|LOCAL)\s+\w+\s+([^\W\d_]\w*)`, case-insensitive.
The four keywords are mutually non-prefix, so ordered alternation equals
trying each in turn. -/
def matchVarDecl (line : Str) : Option Str :=
  let tryKw := fun (kw : Str) =>
    (stripCI kw (line.dropWhile Char.isWhitespace)).bind fun r1 =>
      (expectWs1 r1).bind fun r2 =>
        (expectWord1 r2).bind fun r3 =>
          (expectWs1 r3).bind fun r4 =>
            (takeIdent r4).map Prod.fst
  match tryKw (toChars "PERS") with
  | some n => some n
  | none =>
    match tryKw (toChars "VAR") with
    | some n => some n
    | none =>
      match tryKw (toChars "CONST") with
      | some n => some n
      | none => tryKw (toChars "LOCAL")

/-- Model of `^\s*KW\b`, case-insensitive (the `ENDPROC`/`ENDFUNC` patterns). -/
def matchEndKw (kw : Str) (line : Str) : Bool :=
  match stripCI kw (line.dropWhile Char.isWhitespace) with
  | none => false
  | some [] => true
  | some (c :: _) => !isWordChar c

/-- Model of `re.search` driver: attempt the pattern at each position whose preceding
character is not a word character (all searched patterns start with `\b`
followed by a word character), leftmost match first. -/
def scanPositions {α : Type} (attempt : Str → Option α) : Bool → Str → Option α
  | _, [] => none
  | prevW, c :: rest =>
    match (if prevW then none else attempt (c :: rest)) with
    | some r => some r
    | none => scanPositions attempt (isWordChar c) rest

/-- Model of `re.search` from the start of the string. -/
def searchPat {α : Type} (attempt : Str → Option α) (s : Str) : Option α :=
  scanPositions attempt false s

/-- Attempt `(KW1|KW2|...)\s+([^\W\d_]\w*)` at the current position, ordered
alternation (the `Set|Reset|Switch` and `SetDO|ResetDO` patterns). -/
def attemptKwsName : List Str → Str → Option Str
  | [], _ => none
  | kw :: kws, s =>
    match (stripCI kw s).bind fun r1 =>
        (expectWs1 r1).bind fun r2 => (takeIdent r2).map Prod.fst with
    | some n => some n
    | none => attemptKwsName kws s

/-- Attempt `CallByVar\b[^\n"]*"([^"]+)"` at the current position; the first
quoted argument is captured (lines contain no newline). -/
def attemptCallByVar (s : Str) : Option Str :=
  (stripCI (toChars "CallByVar") s).bind fun r1 =>
    let boundaryOk := match r1 with
      | [] => true
      | c :: _ => !isWordChar c
    if !boundaryOk then none
    else
      match r1.dropWhile (fun c => c ≠ '"' && c ≠ '\n') with
      | '"' :: rest =>
        let content := rest.takeWhile (· ≠ '"')
        match rest.dropWhile (· ≠ '"') with
        | '"' :: _ => if content = [] then none else some content
        | _ => none
      | _ => none

/-! ## Procedure records and the first pass (`analyze_file_first_pass`) -/

/-- Model of `ProcInfo`: one `PROC`/`FUNC`, with its derived fully-qualified name and
collected body lines. -/
structure ProcInfo where
  moduleName : Str
  filePath : Str
  procName : Str
  fqname : Str
  bodyLines : List Str
  codeLines : Nat
deriving DecidableEq

/-- Model of `ProcInfo.__init__`: `fqname = module::name` when the module name is
non-empty (Python truthiness of the string), else the bare name. -/
def mkProcInfo (moduleName filePath procName : Str) : ProcInfo :=
  { moduleName := moduleName
    filePath := filePath
    procName := procName
    fqname := if moduleName ≠ [] then moduleName ++ toChars "::" ++ procName else procName
    bodyLines := []
    codeLines := 0 }

/-- Model of `ProcInfo.add_line`. -/
def ProcInfo.addLine (p : ProcInfo) (line : Str) : ProcInfo :=
  { p with bodyLines := p.bodyLines ++ [line], codeLines := p.codeLines + 1 }

/-- In-place update of the first matching key (Python mutates the dict's
value object; keys are unique in a dict). -/
def amodify {α : Type} : List (Str × α) → Str → (α → α) → List (Str × α)
  | [], _, _ => []
  | (k, v) :: rest, key, f =>
    if k = key then (k, f v) :: rest else (k, v) :: amodify rest key f

/-- The global procedure registry, keyed by fully-qualified name. -/
abbrev Registry := List (Str × ProcInfo)

/-- The bare-lowercase-name index `proc_name_to_fq`. -/
abbrev Index := List (Str × List Str)

/-- The mutable state of the first-pass loop over a file's lines.
`waittime_lines`, indentation tracking and the max-nesting location are
omitted: they never influence control flow or any field the claims mention. -/
structure ScanState where
  totalLines : Nat
  codeLines : Nat
  commentLines : Nat
  simpleComplexity : Nat
  depthComplexity : Nat
  nestingLevel : Nat
  maxNesting : Nat
  currentModule : Option Str
  inNoStepIn : Bool
  currentProc : Option Str
  localProcs : List Str
  registry : Registry
  nameToFq : Index
  dynamicPrefixes : List Str
  variableNames : List Str
  varDeclared : List Str
  varUses : List Str
deriving DecidableEq

/-- The initial scanner state for one file, threading the shared registry
and bare-name index. -/
def initScanState (reg : Registry) (idx : Index) : ScanState :=
  { totalLines := 0, codeLines := 0, commentLines := 0
    simpleComplexity := 1, depthComplexity := 1
    nestingLevel := 0, maxNesting := 0
    currentModule := none, inNoStepIn := false, currentProc := none
    localProcs := []
    registry := reg, nameToFq := idx
    dynamicPrefixes := [], variableNames := [], varDeclared := [], varUses := [] }

def controlStarts : List Str := [toChars "IF", toChars "FOR", toChars "WHILE", toChars "TEST"]

def controlEnds : List Str :=
  [toChars "ENDIF", toChars "ENDFOR", toChars "ENDWHILE", toChars "ENDTEST"]

def extraDecisions : List Str := [toChars "ELSEIF", toChars "CASE"]

/-- The variable-, IO- and `CallByVar`-tracking section of the first-pass
line loop (between the code-line increment and the procedure-header
detection).  It never touches the registry, the bare-name index, the module
state or the procedure state. -/
def scanVars (line stripped : Str) (declMatch : Option Str) (st : ScanState) : ScanState :=
  let lineNoComment := beforeBang stripped
  let lineNoStrings := removeQuoted lineNoComment
  -- identifier uses (declarations themselves are not "uses")
  let st := if declMatch = none then
      { st with varUses := (findIdents lineNoStrings).foldl addUnique st.varUses }
    else st
  -- variable declarations
  let st := match declMatch with
    | some v => { st with variableNames := addUnique st.variableNames v,
                          varDeclared := addUnique st.varDeclared v }
    | none => st
  -- IO usage: Set/Reset/Switch
  let st := match searchPat
      (attemptKwsName [toChars "Set", toChars "Reset", toChars "Switch"]) line with
    | some v => { st with variableNames := addUnique st.variableNames v }
    | none => st
  -- CallByVar quoted name-prefix
  let st := match searchPat attemptCallByVar line with
    | some praw =>
      let p := pstrip praw
      if p ≠ [] then
        { st with dynamicPrefixes := addUnique st.dynamicPrefixes (strLower p) }
      else st
    | none => st
  -- IO usage: SetDO/ResetDO
  match searchPat (attemptKwsName [toChars "SetDO", toChars "ResetDO"]) line with
  | some v => { st with variableNames := addUnique st.variableNames v }
  | none => st

/-- The procedure-end and complexity/nesting section of the first-pass line
loop.  It never touches the registry or the bare-name index. -/
def scanComplexity (line upper : Str) (st : ScanState) : ScanState :=
  -- end of procedure/function
  let st := if matchEndKw (toChars "ENDPROC") line || matchEndKw (toChars "ENDFUNC") line
    then { st with currentProc := none } else st
  -- complexity / nesting: block-closing keywords first
  let st := if controlEnds.any (fun k => k.isPrefixOf upper) then
      { st with nestingLevel := st.nestingLevel - 1 }   -- Nat sub is max(n-1, 0)
    else st
  -- new nesting blocks
  let st := if controlStarts.any (fun k => k.isPrefixOf upper) then
      let n := st.nestingLevel + 1
      { st with simpleComplexity := st.simpleComplexity + 1
                nestingLevel := n
                maxNesting := max st.maxNesting n
                depthComplexity := st.depthComplexity + n }
    else st
  -- branch keywords that add decisions but not nesting
  if extraDecisions.any (fun k => k.isPrefixOf upper) then
    { st with simpleComplexity := st.simpleComplexity + 1
              depthComplexity := st.depthComplexity + st.nestingLevel }
  else st

/-- The module-header detection at the top of the line loop: set
`current_module` on a match, and report whether the line opens an excluded
`NOSTEPIN` module (in which case the caller skips the line). -/
def applyModuleStart (excludeNoStepIn : Bool) (line upper : Str) (st : ScanState) :
    ScanState × Bool :=
  let mModule :=
    if !st.inNoStepIn && containsSub upper (toChars "MODULE") then
      matchKwIdent (toChars "MODULE") line
    else none
  match mModule with
  | some m =>
    ({ st with currentModule := some m },
      excludeNoStepIn && containsSub upper (toChars "NOSTEPIN"))
  | none => (st, false)

/-- The code-line section of the line loop: variable tracking, the
procedure/function header (which registers a new `ProcInfo` and skips the
rest), procedure end, complexity, and body-line collection. -/
def scanCodeLine (filePath fileStem : Str) (line stripped upper : Str)
    (st : ScanState) : ScanState :=
  let st := { st with codeLines := st.codeLines + 1 }
  let declMatch := matchVarDecl line
  let st := scanVars line stripped declMatch st
  -- procedure/function definitions
  let newProcName := match matchKwIdent (toChars "PROC") line with
    | some n => some n
    | none => matchFuncHeader line
  match newProcName with
  | some n =>
    let pinfo := mkProcInfo ((st.currentModule).getD fileStem) filePath n
    let fq := pinfo.fqname
    -- the PROC/FUNC line itself is not body code
    { st with currentProc := some fq
              localProcs := addUnique st.localProcs fq
              registry := aset st.registry fq pinfo
              nameToFq := addToSetMap st.nameToFq (strLower n) fq }
  | none =>
  let st := scanComplexity line upper st
  -- record body lines of the open procedure
  match st.currentProc with
  | some fq => { st with registry := amodify st.registry fq (fun p => p.addLine line) }
  | none => st

/-- One iteration of the first-pass line loop of `analyze_file_first_pass`;
every `continue` of the source is an early result. -/
def scanLine (excludeNoStepIn : Bool) (filePath fileStem : Str)
    (st : ScanState) (line : Str) : ScanState :=
  let stripped := pstrip line
  let upper := strUpper stripped
  -- Detect start of (possibly) NOSTEPIN module
  let pr := applyModuleStart excludeNoStepIn line upper st
  let st := pr.1
  if pr.2 then { st with inNoStepIn := true }
  else if st.inNoStepIn then
    -- inside a NOSTEPIN module: skip everything until ENDMODULE
    if containsSub upper (toChars "ENDMODULE") then
      { st with inNoStepIn := false, currentModule := none }
    else st
  else
    -- handle ENDMODULE for normal modules
    let st := if containsSub upper (toChars "ENDMODULE") then
        { st with currentModule := none }
      else st
    -- ignore decorative comments starting with !** or !--
    if (toChars "!**").isPrefixOf stripped || (toChars "!--").isPrefixOf stripped then st
    else
    let st := { st with totalLines := st.totalLines + 1 }
    -- comment line
    if (toChars "!").isPrefixOf upper then { st with commentLines := st.commentLines + 1 }
    -- blank line
    else if stripped = [] then st
    else
    scanCodeLine filePath fileStem line stripped upper st

/-- The per-file aggregate returned by `analyze_file_first_pass`
(`waittime_lines`, `avg_indent` and the max-nesting location omitted as
above). -/
structure FileStats where
  filePath : Str
  totalLines : Nat
  codeLines : Nat
  commentLines : Nat
  simpleComplexity : Nat
  depthComplexity : Nat
  maxNesting : Nat
  variableNames : List Str
  procIds : List Str
  dynamicPrefixes : List Str
  varDeclared : List Str
  varUses : List Str
deriving DecidableEq

/-- Model of `analyze_file_first_pass`: fold the line loop over the file, then floor
`depth_complexity` at `simple_complexity`. -/
def analyzeFileFirstPass (excludeNoStepIn : Bool) (filePath fileStem : Str)
    (lines : List Str) (reg : Registry) (idx : Index) :
    Registry × Index × FileStats :=
  let st := lines.foldl (scanLine excludeNoStepIn filePath fileStem) (initScanState reg idx)
  (st.registry, st.nameToFq,
    { filePath := filePath
      totalLines := st.totalLines, codeLines := st.codeLines
      commentLines := st.commentLines
      simpleComplexity := st.simpleComplexity
      depthComplexity := max st.depthComplexity st.simpleComplexity
      maxNesting := st.maxNesting
      variableNames := st.variableNames
      procIds := st.localProcs
      dynamicPrefixes := st.dynamicPrefixes
      varDeclared := st.varDeclared, varUses := st.varUses })

/-- One input file: its path, stem (`Path.stem`) and decoded lines. -/
structure FileInput where
  path : Str
  stem : Str
  lines : List Str

/-- The first-pass portion of `analyze_folder`: scan every file in order,
threading the shared registry and bare-name index. -/
def firstPassAll (excludeNoStepIn : Bool) (files : List FileInput) :
    Registry × Index × List FileStats :=
  files.foldl (fun acc f =>
    let (reg', idx', fs) := analyzeFileFirstPass excludeNoStepIn f.path f.stem f.lines acc.1 acc.2.1
    (reg', idx', acc.2.2 ++ [fs])) ([], [], [])

/-! ## Call graph (`build_call_graph`) -/

/-- Caller → distinct callees; `defaultdict(set)` keyed in first-touch order. -/
abbrev CallGraph := List (Str × List Str)

/-- Model of `call_graph[caller].add(callee)`. -/
def addEdge (g : CallGraph) (caller callee : Str) : CallGraph :=
  match alookup g caller with
  | some _ => amodify g caller (fun cs => addUnique cs callee)
  | none => g ++ [(caller, [callee])]

/-- Dynamic-dispatch resolution for one `CallByVar` quoted prefix (already
lower-cased): find every registered bare name starting with the prefix;
resolve all variants, or only `sorted(matching)[0]` with only
`sorted(fq_list)[0]` (`take 1` of the sorted list, mirroring subscript `[0]`
on the never-empty sets produced by the first pass). -/
def dynamicTargets (idx : Index) (prefixLc : Str) (dynamicAllVariants : Bool) : List Str :=
  let matching := (idx.map Prod.fst).filter (fun name => prefixLc.isPrefixOf name)
  if matching = [] then []
  else
    let selected := if dynamicAllVariants then matching else (pySorted matching).take 1
    selected.flatMap fun procName =>
      let fqList := pySorted ((alookup idx procName).getD [])
      if dynamicAllVariants then fqList else fqList.take 1

/-- Static-call scan of one body line: every identifier whose lowercase form
is a registered bare name yields every fully-qualified procedure of that
name. -/
def staticCallees (idx : Index) (lineNoStrings : Str) : List Str :=
  (findIdents lineNoStrings).flatMap fun ident =>
    match alookup idx (strLower ident) with
    | some fqs => fqs
    | none => []

/-- All callees contributed by one body line of `build_call_graph`: skip
comment and `TPWrite` lines, scan static calls on the comment- and
string-stripped text, then resolve a `CallByVar` prefix if present. -/
def lineCallees (idx : Index) (dynamicAllVariants : Bool) (line : Str) : List Str :=
  let stripped := lstrip line
  let upper := strUpper stripped
  if (toChars "!").isPrefixOf upper || (toChars "TPWRITE").isPrefixOf upper then []
  else
    let lineNoStrings := removeQuoted (beforeBang stripped)
    let stat := staticCallees idx lineNoStrings
    let dyn := match searchPat attemptCallByVar stripped with
      | none => []
      | some praw =>
        let p := pstrip praw
        if p = [] then [] else dynamicTargets idx (strLower p) dynamicAllVariants
    stat ++ dyn

/-- Model of `build_call_graph`: scan every registered procedure's body. -/
def buildCallGraph (reg : Registry) (idx : Index) (dynamicAllVariants : Bool) : CallGraph :=
  reg.foldl (fun g e =>
    e.2.bodyLines.foldl (fun g line =>
      (lineCallees idx dynamicAllVariants line).foldl
        (fun g callee => addEdge g e.1 callee) g) g) []

/-! ## Reachability (`compute_call_depths_from_main`) -/

/-- Entry-point test: lowercase fully-qualified name ends in `::main` or
equals `main`. -/
def isMainName (p : Str) : Bool :=
  (toChars "::main").isSuffixOf (strLower p) || strLower p = toChars "main"

/-- Model of `main_candidates`: entry points drawn from the call graph's caller keys. -/
def mainCandidates (g : CallGraph) : List Str := (g.map Prod.fst).filter isMainName

/-- Depth-from-MAIN map. -/
abbrev DepthMap := List (Str × Nat)

/-- Model of `call_graph.get(node, [])`. -/
def adj (g : CallGraph) (n : Str) : List Str := (alookup g n).getD []

/-- The inner loop over a dequeued node's callees: assign depth on first
sight, enqueue. -/
def processNeighbors (d : Nat) : List Str → DepthMap → List Str → DepthMap × List Str
  | [], m, q => (m, q)
  | c :: cs, m, q =>
    match alookup m c with
    | some _ => processNeighbors d cs m q
    | none => processNeighbors d cs ((c, d + 1) :: m) (q ++ [c])

/-- Every name occurring in the call graph (keys and callees), used to bound
the BFS work. -/
def universeList (g : CallGraph) : List Str :=
  g.foldr (fun e acc => e.1 :: (e.2 ++ acc)) []

/-- The `while queue:` BFS loop.  The fuel argument only bounds the
iteration count; `computeCallDepthsFromMain` passes an amount that provably
exceeds the possible number of iterations, so the fuel never runs out
(theorem `bfsLoop` invariant development below). -/
def bfsLoop (g : CallGraph) : Nat → DepthMap → List Str → DepthMap
  | 0, m, _ => m
  | _ + 1, m, [] => m
  | fuel + 1, m, x :: rest =>
    let d := (alookup m x).getD 0
    let pr := processNeighbors d (adj g x) m rest
    bfsLoop g fuel pr.1 pr.2

/-- Model of `compute_call_depths_from_main`: seed every entry point at depth 0 and
run the BFS; with no entry point return the empty map. -/
def computeCallDepthsFromMain (g : CallGraph) : DepthMap :=
  let cands := mainCandidates g
  if cands = [] then []
  else bfsLoop g (2 * (universeList g).length + cands.length)
        (cands.map fun p => (p, 0)) cands

/-! ## Scoring (`compute_file_scores`) -/

/-- The call-depth penalty term of `compute_file_scores`. -/
def callDepthPenalty (d : Nat) : ℚ := min 50 (max 0 (((d : Nat) - 3 : ℚ) * 15))

/-- Model of `file_max_call_depth`: greatest assigned depth over the file's
procedures. -/
def fileMaxCallDepth (procs : List ProcInfo) (depths : DepthMap) : Nat :=
  procs.foldl (fun acc p =>
    match alookup depths p.fqname with
    | some d => max acc d
    | none => acc) 0

/-- The unreachable-procedure count of `compute_file_scores`: depth-mapped
procedures are reachable, `main` (case-insensitive bare name) is exempt, and
so is any procedure matched by a known dynamic-dispatch prefix. -/
def unreachableCount (procs : List ProcInfo) (depths : DepthMap)
    (dynPrefixes : List Str) : Nat :=
  procs.foldl (fun acc p =>
    match alookup depths p.fqname with
    | some _ => acc
    | none =>
      if strLower p.procName = toChars "main" then acc
      else if dynPrefixes.any (fun pre => pre.isPrefixOf (strLower p.procName)) then acc
      else acc + 1) 0

/-- Model of `file_to_procs[path]`: the registry's procedures of one file, in
registry order. -/
def procsOfFile (reg : Registry) (path : Str) : List ProcInfo :=
  (reg.filter (fun e => e.2.filePath = path)).map Prod.snd

/-- The penalty pipeline of `compute_file_scores` from a file's raw metrics
to its final `readability_score`.  Python floats are modelled as `ℚ`. -/
def readabilityScore (totalLines codeLines commentLines simpleComplexity maxNesting
    maxCallDepth procCount biggestProcLines procLineSum unusedVarCount badWordCount :
    Nat) : ℚ :=
  let commentRatioPct : ℚ :=
    if totalLines > 0 then 100 * ((commentLines : ℚ) / (totalLines : ℚ)) else 0
  let cscore := commentScore (commentRatioPct / 100) * 100
  let denomCode : Nat := if codeLines > 0 then codeLines else max procLineSum 1
  let biggestProcRatio : ℚ :=
    if denomCode > 0 then (biggestProcLines : ℚ) / (denomCode : ℚ) else 0
  let complexityPenalty := min 30 (max 0 (((simpleComplexity : ℚ) - 50) * 1))
  let nestingPenalty := min 30 (max 0 (((maxNesting : ℚ) - 8) * 5))
  let callDepthPen := callDepthPenalty maxCallDepth
  let procCountPenalty := if procCount > 20 then min 20 (((procCount : ℚ) - 20) * 1) else 0
  let procSizePenalty :=
    if biggestProcRatio > 60/100 ∧ totalLines > 300 then (biggestProcRatio - 60/100) * 50
    else 0
  let totalLinePenalty :=
    if totalLines > 600 ∧ procCount > 1 then min 20 (((totalLines : ℚ) - 600) * (5/100))
    else 0
  let unusedVarPenalty := min 20 ((unusedVarCount : ℚ) * (1/2))
  let badWordPenalty := min 20 ((badWordCount : ℚ) * (1/2))
  let commentPenalty := 5 - cscore * (5/100)
  let totalPenalty := complexityPenalty + nestingPenalty + callDepthPen
    + procCountPenalty + procSizePenalty + totalLinePenalty
    + badWordPenalty + unusedVarPenalty + commentPenalty
  max 0 (min 100 (100 - totalPenalty))

/-- Model of `all_dynamic_prefixes` of `analyze_folder`: union of the per-file
prefix sets, in file order. -/
def allDynamicPrefixes (stats : List FileStats) : List Str :=
  stats.foldl (fun acc fs => fs.dynamicPrefixes.foldl addUnique acc) []

/-- Concrete single-file project: one `Main` procedure holding one
`IF`/`ENDIF` block and no comments (the C8 scenario; also the C3
counterexample, since this `Main` makes no calls). -/
def stationFile : FileInput :=
  { path := toChars "Station.mod"
    stem := toChars "Station"
    lines := [toChars "MODULE MainModule",
              toChars "PROC Main()",
              toChars "IF bReady THEN",
              toChars "ENDIF",
              toChars "ENDPROC",
              toChars "ENDMODULE"] }

/-- First pass over the single-file project. -/
def stationState : Registry × Index × List FileStats := firstPassAll true [stationFile]

/-- Call graph and depth map of the single-file project. -/
def stationGraph : CallGraph := buildCallGraph stationState.1 stationState.2.1 true

def stationDepths : DepthMap := computeCallDepthsFromMain stationGraph

/-- Concrete two-file project: `Main` statically references `A`, whose body
statically references `B`, declared in the second file (the C2 scenario). -/
def twoFileProject : List FileInput :=
  [{ path := toChars "MainModule.mod"
     stem := toChars "MainModule"
     lines := [toChars "MODULE MainModule",
               toChars "PROC Main()",
               toChars "A;",
               toChars "ENDPROC",
               toChars "PROC A()",
               toChars "B;",
               toChars "ENDPROC",
               toChars "ENDMODULE"] },
   { path := toChars "Helpers.mod"
     stem := toChars "Helpers"
     lines := [toChars "MODULE Helpers",
               toChars "PROC B()",
               toChars "nDone := 1;",
               toChars "ENDPROC",
               toChars "ENDMODULE"] }]

def twoFileState : Registry × Index × List FileStats := firstPassAll true twoFileProject

def twoFileGraph : CallGraph := buildCallGraph twoFileState.1 twoFileState.2.1 true

def twoFileDepths : DepthMap := computeCallDepthsFromMain twoFileGraph

/-- Reachability in exactly `d` edge steps from a seed set, following the
call graph's adjacency. -/
inductive ReachIn (g : CallGraph) (seeds : List Str) : Nat → Str → Prop where
  | seed (s : Str) (hs : s ∈ seeds) : ReachIn g seeds 0 s
  | step (p c : Str) (d : Nat) (hp : ReachIn g seeds d p) (hc : c ∈ adj g p) :
      ReachIn g seeds (d + 1) c

/-- The depth values of the queued nodes. -/
def qVals (m : DepthMap) (q : List Str) : List Nat :=
  q.map (fun y => (alookup m y).getD 0)

/-- The loop invariant of the BFS `while queue:` loop. -/
structure LoopInv (g : CallGraph) (S : List Str) (m : DepthMap) (q : List Str) :
    Prop where
  vals : ∀ n k, alookup m n = some k →
    ReachIn g S k n ∧ ∀ j, ReachIn g S j n → k ≤ j
  seedsDom : ∀ s ∈ S, (alookup m s).isSome = true
  qDom : ∀ y ∈ q, (alookup m y).isSome = true
  sorted : List.Pairwise (· ≤ ·) (qVals m q)
  window : ∀ a ∈ qVals m q, ∀ b ∈ qVals m q, a ≤ b + 1
  closed : ∀ p, (alookup m p).isSome = true → p ∉ q →
    ∀ c ∈ adj g p, (alookup m c).isSome = true
  lowp : ∀ n j, ReachIn g S j n →
    (∀ y ∈ q, ∀ dy, alookup m y = some dy → j < dy) →
    (alookup m n).isSome = true ∧ n ∉ q

/-- The invariant while the dequeued node `x` (of depth `d`) has its
neighbor list partially processed: `x` is already outside the queue, so
closure is only demanded of the other processed nodes, and the queued depth
values all lie in `[d, d+1]`. -/
structure MidInv (g : CallGraph) (S : List Str) (x : Str) (d : Nat)
    (m : DepthMap) (q : List Str) : Prop where
  vals : ∀ n k, alookup m n = some k →
    ReachIn g S k n ∧ ∀ j, ReachIn g S j n → k ≤ j
  seedsDom : ∀ s ∈ S, (alookup m s).isSome = true
  qDom : ∀ y ∈ q, (alookup m y).isSome = true
  sorted : List.Pairwise (· ≤ ·) (qVals m q)
  lb : ∀ v ∈ qVals m q, d ≤ v
  ub : ∀ v ∈ qVals m q, v ≤ d + 1
  closedX : ∀ p, (alookup m p).isSome = true → p ∉ q → p ≠ x →
    ∀ c ∈ adj g p, (alookup m c).isSome = true
  xval : alookup m x = some d
  lowp : ∀ n j, ReachIn g S j n → j < d →
    (∀ y ∈ q, ∀ dy, alookup m y = some dy → j < dy) →
    (alookup m n).isSome = true ∧ n ∉ q

/-- The assigned-key set as a finite set, for the termination measure. -/
def domF (m : DepthMap) : Finset Str := (m.map Prod.fst).toFinset

/-- The invariant tying the bare-name index to the registry: every
fully-qualified name stored in the index is a registry key. -/
def IdxInv (reg : Registry) (idx : Index) : Prop :=
  ∀ bare fqs, alookup idx bare = some fqs → ∀ fq ∈ fqs, fq ∈ reg.map Prod.fst

/-- A predicate-based description of the call-graph invariant. -/
def GraphInv (P : Str → Prop) (g : CallGraph) : Prop :=
  ∀ k vs, alookup g k = some vs → P k ∧ ∀ v ∈ vs, P v

/-! # Theorems -/

/-- C1: For every analyzed file, regardless of the raw metric values
(complexity, nesting, call depth, procedure count and sizes, unused-variable
count, bad-token count, comment ratio), the final `readability_score`
produced by `compute_file_scores` lies in the closed interval `[0, 100]`:
the summed penalties are subtracted from 100 and the result is clamped. -/
theorem C1_readability_score_bounded
    (totalLines codeLines commentLines simpleComplexity maxNesting maxCallDepth
     procCount biggestProcLines procLineSum unusedVarCount badWordCount : Nat) :
    0 ≤ readabilityScore totalLines codeLines commentLines simpleComplexity maxNesting
        maxCallDepth procCount biggestProcLines procLineSum unusedVarCount badWordCount ∧
    readabilityScore totalLines codeLines commentLines simpleComplexity maxNesting
        maxCallDepth procCount biggestProcLines procLineSum unusedVarCount badWordCount
      ≤ 100 := by
  unfold readabilityScore
  exact ⟨le_max_left _ _, max_le (by norm_num) (min_le_left _ _)⟩

/-- On the closed first segment `[0, 0.06]` the score is the linear ramp. -/
lemma commentScore_seg1 (r : ℚ) (h0 : 0 ≤ r) (h6 : r ≤ 6/100) :
    commentScore r = r / (6/100) := by
  unfold commentScore
  split_ifs with h1 h2 h3 h4
  · have : r = 0 := le_antisymm h1 h0
    rw [this]; norm_num
  · rfl
  · have : r = 6/100 := le_antisymm h6 (not_lt.mp h2)
    rw [this]; norm_num
  · linarith
  · linarith

/-- On the plateau `[0.06, 0.25]` the score is `1`. -/
lemma commentScore_plateau (r : ℚ) (h6 : 6/100 ≤ r) (h25 : r ≤ 25/100) :
    commentScore r = 1 := by
  unfold commentScore
  split_ifs with h1 h2 <;> first | rfl | linarith

/-- On the closed third segment `[0.25, 0.60]` the score is the descending
linear ramp. -/
lemma commentScore_seg3 (r : ℚ) (h25 : 25/100 ≤ r) (h60 : r ≤ 60/100) :
    commentScore r = 1 - (r - 25/100) / (60/100 - 25/100) := by
  unfold commentScore
  split_ifs with h1 h2 h3 h4
  · linarith
  · linarith
  · have : r = 25/100 := le_antisymm h3 h25
    rw [this]; norm_num
  · have : r = 60/100 := le_antisymm h60 (by linarith)
    rw [this]; norm_num
  · rfl

/-- At or above `0.60` the score is `0`. -/
lemma commentScore_high (r : ℚ) (h : 60/100 ≤ r) : commentScore r = 0 := by
  unfold commentScore
  split_ifs <;> first | rfl | linarith

/-- The comment score is never negative. -/
lemma commentScore_nonneg (r : ℚ) : 0 ≤ commentScore r := by
  unfold commentScore
  split_ifs with h1 h2 h3 h4
  · exact le_refl 0
  · have : 0 < r := not_le.mp h1
    positivity
  · norm_num
  · exact le_refl 0
  · have hlt : r < 60/100 := not_le.mp h4
    have : (r - 25/100) / (60/100 - 25/100) < 1 := by
      rw [div_lt_one (by norm_num)]
      linarith
    linarith

/-- C6: The comment-health function satisfies `score(0) = 0`,
`score(0.06) = 1`, `score(0.25) = 1`, `score(0.60) = 0`; it follows the
stated linear formula on each of its three segments (the closed-segment
formulas agree at the shared endpoints, which is continuity for a piecewise
linear map), is `0` at or above `0.60`, and is monotone as claimed:
non-decreasing on the first segment, constant on the plateau, and
non-increasing from `0.25` on. -/
theorem C6_comment_score_shape :
    commentScore 0 = 0 ∧ commentScore (6/100) = 1 ∧ commentScore (25/100) = 1 ∧
    commentScore (60/100) = 0 ∧
    (∀ r : ℚ, 0 ≤ r → r ≤ 6/100 → commentScore r = r / (6/100)) ∧
    (∀ r : ℚ, 6/100 ≤ r → r ≤ 25/100 → commentScore r = 1) ∧
    (∀ r : ℚ, 25/100 ≤ r → r ≤ 60/100 →
      commentScore r = 1 - (r - 25/100) / (60/100 - 25/100)) ∧
    (∀ r : ℚ, 60/100 ≤ r → commentScore r = 0) ∧
    (∀ r s : ℚ, 0 ≤ r → r ≤ s → s ≤ 6/100 → commentScore r ≤ commentScore s) ∧
    (∀ r s : ℚ, 25/100 ≤ r → r ≤ s → commentScore s ≤ commentScore r) := by
  refine ⟨by norm_num [commentScore], by norm_num [commentScore],
    by norm_num [commentScore], by norm_num [commentScore],
    commentScore_seg1, commentScore_plateau, commentScore_seg3, commentScore_high,
    ?_, ?_⟩
  · intro r s hr hrs hs6
    rw [commentScore_seg1 r hr (le_trans hrs hs6), commentScore_seg1 s (le_trans hr hrs) hs6]
    gcongr
  · intro r s h25 hrs
    rcases le_or_lt s (60/100) with hs | hs
    · rw [commentScore_seg3 r h25 (le_trans hrs hs), commentScore_seg3 s (le_trans h25 hrs) hs]
      have : (r - 25/100) / (60/100 - 25/100) ≤ (s - 25/100) / (60/100 - 25/100) := by
        gcongr
      linarith
    · rw [commentScore_high s hs.le]
      exact commentScore_nonneg r

/-- Witness for C6: the hypotheses of its quantified parts are satisfiable;
evaluation at `r = 1/100` and the pair `(30/100, 40/100)`. -/
theorem C6_comment_score_shape_witness :
    commentScore (1/100) = (1/100) / (6/100) ∧
    commentScore (40/100) ≤ commentScore (30/100) := by
  refine ⟨C6_comment_score_shape.2.2.2.2.1 (1/100) (by norm_num) (by norm_num), ?_⟩
  exact C6_comment_score_shape.2.2.2.2.2.2.2.2.2 (30/100) (40/100) (by norm_num) (by norm_num)

/-- A whitelisted token is good. -/
lemma tokenIsGood_of_allowed (isWord : Str → Bool) (t : Str)
    (h : strLower t ∈ allowedShortTokens) : tokenIsGood isWord t = true := by
  unfold tokenIsGood
  simp [h]

/-- A short non-whitelisted token is bad. -/
lemma tokenIsGood_short (isWord : Str → Bool) (t : Str)
    (hmem : strLower t ∉ allowedShortTokens) (hlen : (strLower t).length < 3) :
    tokenIsGood isWord t = false := by
  unfold tokenIsGood
  simp [hmem, hlen]

/-- An identifier all of whose (at least one) tokens are good scores `1`. -/
lemma variableGoodness_all_good (isWord : Str → Bool) (v : Str)
    (hne : splitIdentifier v ≠ [])
    (hall : ∀ t ∈ splitIdentifier v, tokenIsGood isWord t = true) :
    variableGoodness isWord v = 1 := by
  unfold variableGoodness
  rw [if_neg hne]
  rw [List.countP_eq_length.mpr hall]
  have : ((splitIdentifier v).length : ℚ) ≠ 0 := by
    exact_mod_cast List.length_pos.mpr hne |>.ne'
  field_simp

/-- An identifier all of whose tokens are bad scores `0`. -/
lemma variableGoodness_all_bad (isWord : Str → Bool) (v : Str)
    (hall : ∀ t ∈ splitIdentifier v, tokenIsGood isWord t = false) :
    variableGoodness isWord v = 0 := by
  simp only [variableGoodness]
  split_ifs with h
  · rfl
  · rw [List.countP_eq_zero.mpr (fun t ht => by simp [hall t ht])]
    simp

/-- C7: The naming score is `1` for an empty identifier collection
(neutral maximum); `1` for a nonempty collection whose identifiers all split
into at least one token with every token on the short-token allowlist
(matched against the lower-cased token, hence case-insensitively, regardless
of token length); `0` for a nonempty collection whose identifiers only
produce tokens that are shorter than 3 characters and not allowlisted; and a
token is classified good exactly when it is allowlisted or has length at
least 3 and the word oracle accepts it. -/
theorem C7_variable_name_score (isWord : Str → Bool) (vs : List Str) :
    variableNameScore isWord [] = 1 ∧
    (vs ≠ [] → (∀ v ∈ vs, splitIdentifier v ≠ [] ∧
        ∀ t ∈ splitIdentifier v, strLower t ∈ allowedShortTokens) →
      variableNameScore isWord vs = 1) ∧
    (vs ≠ [] → (∀ v ∈ vs, ∀ t ∈ splitIdentifier v,
        strLower t ∉ allowedShortTokens ∧ (strLower t).length < 3) →
      variableNameScore isWord vs = 0) ∧
    (∀ t : Str, tokenIsGood isWord t = true ↔
      strLower t ∈ allowedShortTokens ∨
        (3 ≤ (strLower t).length ∧ isWord (strLower t) = true)) := by
  refine ⟨rfl, ?_, ?_, ?_⟩
  · intro hne hall
    unfold variableNameScore
    rw [if_neg hne]
    have hone : ∀ x ∈ vs.map (variableGoodness isWord), x = (1 : ℚ) := by
      intro x hx
      obtain ⟨v, hv, rfl⟩ := List.mem_map.mp hx
      exact variableGoodness_all_good isWord v (hall v hv).1
        (fun t ht => tokenIsGood_of_allowed isWord t ((hall v hv).2 t ht))
    rw [List.sum_eq_card_nsmul _ 1 hone]
    have : ((vs.length : ℚ)) ≠ 0 := by
      exact_mod_cast List.length_pos.mpr hne |>.ne'
    simp [this]
  · intro hne hall
    unfold variableNameScore
    rw [if_neg hne]
    have hzero : ∀ x ∈ vs.map (variableGoodness isWord), x = (0 : ℚ) := by
      intro x hx
      obtain ⟨v, hv, rfl⟩ := List.mem_map.mp hx
      exact variableGoodness_all_bad isWord v
        (fun t ht => tokenIsGood_short isWord t (hall v hv t ht).1 (hall v hv t ht).2)
    rw [List.sum_eq_card_nsmul _ 0 hzero]
    simp
  · intro t
    simp only [tokenIsGood]
    split_ifs with h1 h2
    · simp [h1]
    · simp [h1]
      omega
    · simp [h1, h2]
      omega

/-! ### Character-level facts about `Char.toLower` -/

lemma char_toNat_ofNat {n : Nat} (h : n.isValidChar) : (Char.ofNat n).toNat = n := by
  simp [Char.ofNat, h, Char.ofNatAux, Char.toNat, UInt32.ofNatCore, UInt32.toNat]

lemma char_isUpper_iff (c : Char) : c.isUpper = true ↔ 65 ≤ c.toNat ∧ c.toNat ≤ 90 := by
  simp [Char.isUpper, Char.toNat, UInt32.le_def, BitVec.le_def, UInt32.toNat]

lemma char_isDigit_iff (c : Char) : c.isDigit = true ↔ 48 ≤ c.toNat ∧ c.toNat ≤ 57 := by
  simp [Char.isDigit, Char.toNat, UInt32.le_def, BitVec.le_def, UInt32.toNat]

lemma toLower_eq_self {c : Char} (h : c.isUpper = false) : c.toLower = c := by
  unfold Char.toLower
  rw [if_neg]
  intro hc
  have : c.isUpper = true := (char_isUpper_iff c).mpr ⟨hc.1, hc.2⟩
  simp [this] at h

/-- When `c` is an upper-case letter, `toLower` lands in `[97, 122]`. -/
lemma toLower_toNat_of_upper {c : Char} (h : c.isUpper = true) :
    (c.toLower).toNat = c.toNat + 32 := by
  have hn := (char_isUpper_iff c).mp h
  unfold Char.toLower
  rw [if_pos ⟨hn.1, hn.2⟩]
  exact char_toNat_ofNat (Or.inl (by omega))

lemma isUpper_toLower (c : Char) : (c.toLower).isUpper = false := by
  by_cases h : c.isUpper = true
  · have hn := (char_isUpper_iff c).mp h
    by_contra hu
    have hu' : (c.toLower).isUpper = true := by simpa using hu
    have := (char_isUpper_iff _).mp hu'
    rw [toLower_toNat_of_upper h] at this
    omega
  · rw [toLower_eq_self (by simpa using h)]
    simpa using h

lemma isDigit_toLower {c : Char} (h : c.isDigit = false) : (c.toLower).isDigit = false := by
  by_cases hu : c.isUpper = true
  · by_contra hd
    have hd' : (c.toLower).isDigit = true := by simpa using hd
    have := (char_isDigit_iff _).mp hd'
    rw [toLower_toNat_of_upper hu] at this
    have hn := (char_isUpper_iff c).mp hu
    omega
  · rw [toLower_eq_self (by simpa using hu)]
    exact h

lemma toLower_ne_underscore {c : Char} (h : c ≠ '_') : c.toLower ≠ '_' := by
  by_cases hu : c.isUpper = true
  · intro hc
    have : (c.toLower).toNat = 95 := by rw [hc]; rfl
    rw [toLower_toNat_of_upper hu] at this
    have hn := (char_isUpper_iff c).mp hu
    omega
  · rw [toLower_eq_self (by simpa using hu)]
    exact h

lemma strLower_eq_self {s : Str} (h : ∀ c ∈ s, c.isUpper = false) : strLower s = s := by
  unfold strLower
  induction s with
  | nil => rfl
  | cons c rest ih =>
    simp only [List.map_cons]
    rw [toLower_eq_self (h c (by simp)), ih (fun c hc => h c (by simp [hc]))]

/-! ### `camel_split` invariants -/

lemma getLastD_mem : ∀ (l : Str) (d : Char), l ≠ [] → l.getLastD d ∈ l
  | [], _, h => absurd rfl h
  | a :: l, d, _ => by
    rw [List.getLastD_cons]
    by_cases h : l = []
    · subst h; simp [List.getLastD]
    · exact List.mem_cons_of_mem a (getLastD_mem l a h)

/-- Outputs of the `camel_split` loop are nonempty, given nonempty `current` and
accumulated tokens. -/
lemma camelAux_ne_nil (rest : Str) :
    ∀ (result : List Str) (current : Str), current ≠ [] →
    (∀ r ∈ result, r ≠ []) → ∀ t ∈ camelAux result current rest, t ≠ [] := by
  induction rest with
  | nil =>
    intro result current hc hr t ht
    simp only [camelAux, List.mem_append, List.mem_singleton] at ht
    rcases ht with ht | ht
    · exact hr t ht
    · subst ht; exact hc
  | cons ch rest ih =>
    intro result current hc hr t ht
    simp only [camelAux] at ht
    split_ifs at ht with h1 h2 h3 h4
    · refine ih _ _ (by simp) ?_ t ht
      intro r hrr
      rcases List.mem_append.mp hrr with hro | hrc
      · exact hr r hro
      · rw [List.mem_singleton.mp hrc]; exact hc
    · exact ih _ _ (by simp) hr t ht
    · exact ih _ _ (by simp) hr t ht
    · refine ih _ _ (by simp) ?_ t ht
      intro r hrr
      rcases List.mem_append.mp hrr with hro | hrc
      · exact hr r hro
      · rw [List.mem_singleton.mp hrc]
        have hlen : 1 < current.length := by
          have := h4
          simp only [Bool.and_eq_true, decide_eq_true_eq] at this
          exact this.2
        have : 0 < current.dropLast.length := by
          rw [List.length_dropLast]; omega
        exact List.ne_nil_of_length_pos this
    · exact ih _ _ (by simp) hr t ht

/-- Every character of a `camel_split` loop output comes from `current`,
the remaining input, or an accumulated token. -/
lemma camelAux_chars (P : Char → Prop) (rest : Str) :
    ∀ (result : List Str) (current : Str), current ≠ [] →
    (∀ c ∈ current, P c) → (∀ c ∈ rest, P c) →
    (∀ r ∈ result, ∀ c ∈ r, P c) →
    ∀ t ∈ camelAux result current rest, ∀ c ∈ t, P c := by
  induction rest with
  | nil =>
    intro result current _ hcur _ hres t ht c hct
    simp only [camelAux, List.mem_append, List.mem_singleton] at ht
    rcases ht with ht | ht
    · exact hres t ht c hct
    · subst ht; exact hcur c hct
  | cons ch rest ih =>
    intro result current hc hcur hrest hres t ht c hct
    have hch : P ch := hrest ch (by simp)
    have hrest' : ∀ c ∈ rest, P c := fun c hc => hrest c (by simp [hc])
    simp only [camelAux] at ht
    split_ifs at ht with h1 h2 h3 h4
    · refine ih _ _ (by simp) (by simpa using hch) hrest' ?_ t ht c hct
      intro r hrr
      rcases List.mem_append.mp hrr with hro | hrc
      · exact hres r hro
      · rw [List.mem_singleton.mp hrc]; exact hcur
    · refine ih _ _ (by simp) ?_ hrest' hres t ht c hct
      intro d hd
      rcases List.mem_append.mp hd with hdc | hdc
      · exact hcur d hdc
      · rw [List.mem_singleton.mp hdc]; exact hch
    · refine ih _ _ (by simp) ?_ hrest' hres t ht c hct
      intro d hd
      rcases List.mem_append.mp hd with hdc | hdc
      · exact hcur d hdc
      · rw [List.mem_singleton.mp hdc]; exact hch
    · refine ih _ _ (by simp) ?_ hrest' ?_ t ht c hct
      · intro d hd
        rcases List.mem_cons.mp hd with hdc | hdc
        · rw [hdc]; exact hcur _ (getLastD_mem current 'a' hc)
        · rw [List.mem_singleton.mp hdc]; exact hch
      · intro r hrr
        rcases List.mem_append.mp hrr with hro | hrc
        · exact hres r hro
        · rw [List.mem_singleton.mp hrc]
          intro d hd
          exact hcur d (List.dropLast_subset current hd)
    · refine ih _ _ (by simp) ?_ hrest' hres t ht c hct
      intro d hd
      rcases List.mem_append.mp hd with hdc | hdc
      · exact hcur d hdc
      · rw [List.mem_singleton.mp hdc]; exact hch

/-- On input without upper-case characters the `camel_split` loop performs no
split at all. -/
lemma camelAux_no_upper (rest : Str) :
    ∀ (result : List Str) (current : Str), current ≠ [] →
    (∀ c ∈ current, c.isUpper = false) → (∀ c ∈ rest, c.isUpper = false) →
    camelAux result current rest = result ++ [current ++ rest] := by
  induction rest with
  | nil => intro result current _ _ _; simp [camelAux]
  | cons ch rest ih =>
    intro result current hc hcur hrest
    have hch : ch.isUpper = false := hrest ch (by simp)
    have hlast : (lastD current).isUpper = false :=
      hcur _ (getLastD_mem current 'a' hc)
    simp only [camelAux]
    rw [if_neg (by simp [hch]), if_neg (by simp [hlast])]
    rw [ih result (current ++ [ch]) (by simp)
      (by
        intro d hd
        rcases List.mem_append.mp hd with hdc | hdc
        · exact hcur d hdc
        · rw [List.mem_singleton.mp hdc]; exact hch)
      (fun d hd => hrest d (by simp [hd]))]
    simp

lemma camelSplit_tokens_ne_nil {s : Str} : ∀ t ∈ camelSplit s, t ≠ [] := by
  cases s with
  | nil => intro t ht; simp [camelSplit] at ht
  | cons c rest =>
    intro t ht
    exact camelAux_ne_nil rest [] [c] (by simp) (by simp) t ht

lemma camelSplit_chars (P : Char → Prop) {s : Str} (h : ∀ c ∈ s, P c) :
    ∀ t ∈ camelSplit s, ∀ c ∈ t, P c := by
  cases s with
  | nil => intro t ht; simp [camelSplit] at ht
  | cons c rest =>
    intro t ht d hd
    exact camelAux_chars P rest [] [c] (by simp)
      (by simpa using h c (by simp)) (fun e he => h e (by simp [he]))
      (by simp) t ht d hd

lemma camelSplit_no_upper {s : Str} (hne : s ≠ [])
    (h : ∀ c ∈ s, c.isUpper = false) : camelSplit s = [s] := by
  cases s with
  | nil => exact absurd rfl hne
  | cons c rest =>
    show camelAux [] [c] rest = [c :: rest]
    rw [camelAux_no_upper rest [] [c] (by simp)
      (by simpa using h c (by simp)) (fun d hd => h d (by simp [hd]))]
    simp

/-! ### `splitOnPred` invariants -/

lemma splitOnPred_no_sep (p : Char → Bool) :
    ∀ (s : Str), (∀ c ∈ s, p c = false) → splitOnPred p s = [s] := by
  intro s
  induction s with
  | nil => intro _; rfl
  | cons c rest ih =>
    intro h
    simp only [splitOnPred]
    rw [if_neg (by simp [h c (by simp)])]
    rw [ih (fun d hd => h d (by simp [hd]))]

lemma splitOnPred_sound (p : Char → Bool) :
    ∀ (s : Str), ∀ seg ∈ splitOnPred p s, ∀ c ∈ seg, c ∈ s ∧ p c = false := by
  intro s
  induction s with
  | nil =>
    intro seg hseg c hc
    simp only [splitOnPred, List.mem_singleton] at hseg
    subst hseg
    simp at hc
  | cons c0 rest ih =>
    intro seg hseg c hc
    simp only [splitOnPred] at hseg
    split_ifs at hseg with hp
    · rcases List.mem_cons.mp hseg with h | h
      · subst h; simp at hc
      · have := ih seg h c hc
        exact ⟨by simp [this.1], this.2⟩
    · revert hseg
      cases hrec : splitOnPred p rest with
      | nil =>
        intro hseg
        rw [List.mem_singleton.mp hseg] at hc
        rcases List.mem_singleton.mp hc with rfl
        exact ⟨by simp, by simpa using hp⟩
      | cons seg0 segs =>
        intro hseg
        rcases List.mem_cons.mp hseg with h | h
        · subst h
          rcases List.mem_cons.mp hc with rfl | hcseg
          · exact ⟨by simp, by simpa using hp⟩
          · have := ih seg0 (by rw [hrec]; simp) c hcseg
            exact ⟨by simp [this.1], this.2⟩
        · have := ih seg (by rw [hrec]; simp [h]) c hc
          exact ⟨by simp [this.1], this.2⟩

/-! ### The `split_identifier` token characterization -/

/-- Every token produced by `split_identifier` is nonempty, contains no
upper-case letter, digit or underscore, and is not one of the axis words. -/
lemma splitIdentifier_tokens {name : Str} :
    ∀ t ∈ splitIdentifier name,
      t ≠ [] ∧ (∀ c ∈ t, c.isUpper = false ∧ c.isDigit = false ∧ c ≠ '_') ∧
      t ∉ axisWords := by
  intro t ht
  simp only [splitIdentifier, List.mem_flatMap] at ht
  obtain ⟨part, hpart, ht⟩ := ht
  rw [if_neg ?hpartne] at ht
  case hpartne =>
    intro he
    subst he
    simp at ht
  simp only [List.mem_flatMap] at ht
  obtain ⟨chunk, hchunk, ht⟩ := ht
  rw [if_neg ?hchunkne] at ht
  case hchunkne =>
    intro he
    subst he
    simp at ht
  simp only [List.mem_flatMap] at ht
  obtain ⟨sRaw, hsRaw, ht⟩ := ht
  have hchunkchars : ∀ c ∈ chunk, c.isDigit = false ∧ c ≠ '_' := by
    intro c hc
    have h1 := splitOnPred_sound Char.isDigit part chunk hchunk c hc
    have h2 := splitOnPred_sound _ name part hpart c h1.1
    refine ⟨h1.2, ?_⟩
    have := h2.2
    simpa using this
  have hsRawchars : ∀ c ∈ sRaw, c.isDigit = false ∧ c ≠ '_' := by
    intro c hc
    exact camelSplit_chars (fun c => c.isDigit = false ∧ c ≠ '_') hchunkchars sRaw hsRaw c hc
  have hsRawne : sRaw ≠ [] := camelSplit_tokens_ne_nil sRaw hsRaw
  have hlowchars : ∀ c ∈ strLower sRaw,
      c.isUpper = false ∧ c.isDigit = false ∧ c ≠ '_' := by
    intro c hc
    obtain ⟨d, hd, rfl⟩ := List.mem_map.mp hc
    exact ⟨isUpper_toLower d, isDigit_toLower (hsRawchars d hd).1,
      toLower_ne_underscore (hsRawchars d hd).2⟩
  have hlowne : strLower sRaw ≠ [] := by
    simp only [strLower, ne_eq, List.map_eq_nil_iff]
    exact hsRawne
  by_cases haxis : strLower sRaw ∈ axisWords
  · rw [if_pos haxis] at ht
    rcases (show strLower sRaw = toChars "xaxis" ∨ strLower sRaw = toChars "yaxis" ∨
        strLower sRaw = toChars "zaxis" by simpa [axisWords] using haxis) with he | he | he <;>
      rw [he] at ht <;>
      rcases List.mem_cons.mp ht with rfl | ht <;>
      first
        | exact ⟨by decide, by decide, by decide⟩
        | (rcases List.mem_singleton.mp ht with rfl; exact ⟨by decide, by decide, by decide⟩)
  · rw [if_neg haxis] at ht
    rcases List.mem_singleton.mp ht with rfl
    exact ⟨hlowne, hlowchars, haxis⟩

/-- Re-splitting any string that is nonempty, lower-case, digit- and
underscore-free, and not an axis word returns exactly that string. -/
lemma splitIdentifier_singleton {t : Str} (hne : t ≠ [])
    (hchars : ∀ c ∈ t, c.isUpper = false ∧ c.isDigit = false ∧ c ≠ '_')
    (haxis : t ∉ axisWords) : splitIdentifier t = [t] := by
  unfold splitIdentifier
  rw [splitOnPred_no_sep _ t (fun c hc => by simp [(hchars c hc).2.2])]
  simp only [List.flatMap_cons, List.flatMap_nil, List.append_nil]
  rw [if_neg hne]
  rw [splitOnPred_no_sep Char.isDigit t (fun c hc => (hchars c hc).2.1)]
  simp only [List.flatMap_cons, List.flatMap_nil, List.append_nil]
  rw [if_neg hne]
  rw [camelSplit_no_upper hne (fun c hc => (hchars c hc).1)]
  simp only [List.flatMap_cons, List.flatMap_nil, List.append_nil]
  rw [strLower_eq_self (fun c hc => (hchars c hc).1)]
  rw [if_neg haxis]

/-- C9: `split_identifier` is idempotent on its own output — re-splitting
any produced token yields exactly that one token — and never produces an
empty token. -/
theorem C9_split_identifier_idempotent (name : Str) :
    ∀ t ∈ splitIdentifier name, splitIdentifier t = [t] ∧ t ≠ [] := by
  intro t ht
  obtain ⟨hne, hchars, haxis⟩ := splitIdentifier_tokens t ht
  exact ⟨splitIdentifier_singleton hne hchars haxis, hne⟩

/-- Witness for C9: the token `point` of `point2On` re-splits to itself. -/
theorem C9_split_identifier_idempotent_witness :
    splitIdentifier (toChars "point") = [toChars "point"] ∧ toChars "point" ≠ [] :=
  C9_split_identifier_idempotent (toChars "point2On") (toChars "point") (by decide)

/-! ### Order lemmas for `pySorted` (Python `sorted`) -/

lemma strLe_refl : ∀ (a : Str), strLe a a = true := by
  intro a
  induction a with
  | nil => rfl
  | cons x as ih => simp [strLe, ih]

lemma strLe_total : ∀ (a b : Str), strLe a b = true ∨ strLe b a = true := by
  intro a
  induction a with
  | nil => intro b; left; rfl
  | cons x as ih =>
    intro b
    cases b with
    | nil => right; rfl
    | cons y bs =>
      simp only [strLe]
      rcases Nat.lt_trichotomy x.toNat y.toNat with h | h | h
      · left; simp [h]
      · rcases ih bs with hle | hle <;>
          [left; right] <;> simp [h, Nat.lt_irrefl, hle]
      · right; simp [h]

lemma strLe_trans : ∀ (a b c : Str), strLe a b = true → strLe b c = true →
    strLe a c = true := by
  intro a
  induction a with
  | nil => intro b c _ _; rfl
  | cons x as ih =>
    intro b c h1 h2
    cases b with
    | nil => simp [strLe] at h1
    | cons y bs =>
      cases c with
      | nil => simp [strLe] at h2
      | cons z cs =>
        simp only [strLe] at h1 h2 ⊢
        split_ifs at h1 h2 ⊢ with hxy hyx hyz hzy hxz hzx <;>
          first | rfl | omega | skip
        all_goals try simp_all
        exact ih bs cs h1 h2

lemma insertLe_mem (x : Str) (l : List Str) (y : Str) :
    y ∈ insertLe x l ↔ y = x ∨ y ∈ l := by
  induction l with
  | nil => simp [insertLe]
  | cons z zs ih =>
    simp only [insertLe]
    split_ifs with h
    · simp [List.mem_cons]
    · simp only [List.mem_cons, ih]
      tauto

lemma pySorted_mem (l : List Str) (y : Str) : y ∈ pySorted l ↔ y ∈ l := by
  induction l with
  | nil => simp [pySorted]
  | cons x xs ih => simp [pySorted, insertLe_mem, ih]

lemma insertLe_ne_nil (x : Str) (l : List Str) : insertLe x l ≠ [] := by
  cases l with
  | nil => simp [insertLe]
  | cons z zs =>
    simp only [insertLe]
    split_ifs <;> simp

/-- The head of `pySorted` is a least element for `strLe`. -/
lemma pySorted_head_min : ∀ (l : List Str) (h0 : Str) (t : List Str),
    pySorted l = h0 :: t → h0 ∈ l ∧ ∀ x ∈ l, strLe h0 x = true := by
  intro l
  induction l with
  | nil => intro h0 t h; simp [pySorted] at h
  | cons x xs ih =>
    intro h0 t h
    simp only [pySorted] at h
    cases hs : pySorted xs with
    | nil =>
      rw [hs] at h
      simp only [insertLe] at h
      rcases h with ⟨rfl, rfl⟩
      have hxs : xs = [] := by
        cases xs with
        | nil => rfl
        | cons a as => exact absurd hs (by simp [pySorted, insertLe_ne_nil])
      subst hxs
      refine ⟨by simp, ?_⟩
      intro y hy
      rcases List.mem_singleton.mp hy with rfl
      exact strLe_refl _
    | cons h' t' =>
      rw [hs] at h
      obtain ⟨hmem, hmin⟩ := ih h' t' hs
      simp only [insertLe] at h
      split_ifs at h with hle
      · rcases h with ⟨rfl, -⟩
        refine ⟨by simp, ?_⟩
        intro y hy
        rcases List.mem_cons.mp hy with rfl | hy
        · exact strLe_refl _
        · exact strLe_trans _ _ _ hle (hmin y hy)
      · rcases h with ⟨rfl, -⟩
        refine ⟨by simp [hmem], ?_⟩
        intro y hy
        rcases List.mem_cons.mp hy with rfl | hy
        · rcases strLe_total h0 y with hh | hh
          · exact hh
          · exact absurd hh hle
        · exact hmin y hy

/-- In resolve-all-variants mode the targets are all fully-qualified forms of
all matching bare names. -/
lemma dynamicTargets_all (idx : Index) (pfx : Str) :
    dynamicTargets idx pfx true =
      ((idx.map Prod.fst).filter (fun n => pfx.isPrefixOf n)).flatMap
        (fun n => pySorted ((alookup idx n).getD [])) := by
  by_cases hm : (idx.map Prod.fst).filter (fun name => pfx.isPrefixOf name) = []
  · simp [dynamicTargets, hm]
  · simp [dynamicTargets, hm]

/-- In first-variant-only mode the targets are the first fully-qualified form
of the first matching bare name (written with `take 1`, which also absorbs
the no-match case). -/
lemma dynamicTargets_first (idx : Index) (pfx : Str) :
    dynamicTargets idx pfx false =
      ((pySorted ((idx.map Prod.fst).filter (fun n => pfx.isPrefixOf n))).take 1).flatMap
        (fun n => (pySorted ((alookup idx n).getD [])).take 1) := by
  by_cases hm : (idx.map Prod.fst).filter (fun name => pfx.isPrefixOf name) = []
  · simp [dynamicTargets, hm, pySorted]
  · simp [dynamicTargets, hm]

/-- C4: Dynamic-dispatch (`CallByVar`) resolution: in resolve-all-variants
mode a prefix yields exactly the fully-qualified forms of every registered
bare name starting with the prefix (prefix and index keys are lower-cased by
the scanner and the builder, so the match is case-insensitive); in
first-variant-only mode it yields at most one target, drawn as the
lexicographically first fully-qualified form of the lexicographically first
matching bare name. -/
theorem C4_dynamic_dispatch_modes (idx : Index) (pfx : Str) :
    (∀ t, t ∈ dynamicTargets idx pfx true ↔
      ∃ name, name ∈ idx.map Prod.fst ∧ pfx.isPrefixOf name = true ∧
        t ∈ (alookup idx name).getD []) ∧
    (dynamicTargets idx pfx false).length ≤ 1 ∧
    (∀ t ∈ dynamicTargets idx pfx false,
      ∃ name, name ∈ idx.map Prod.fst ∧ pfx.isPrefixOf name = true ∧
        (∀ n ∈ idx.map Prod.fst, pfx.isPrefixOf n = true → strLe name n = true) ∧
        t ∈ (alookup idx name).getD [] ∧
        (∀ u ∈ (alookup idx name).getD [], strLe t u = true)) := by
  refine ⟨?_, ?_, ?_⟩
  · intro t
    rw [dynamicTargets_all, List.mem_flatMap]
    constructor
    · rintro ⟨name, hname, ht⟩
      obtain ⟨h1, h2⟩ := List.mem_filter.mp hname
      exact ⟨name, h1, h2, (pySorted_mem _ _).mp ht⟩
    · rintro ⟨name, hmem, hpfx, ht⟩
      exact ⟨name, List.mem_filter.mpr ⟨hmem, hpfx⟩, (pySorted_mem _ _).mpr ht⟩
  · rw [dynamicTargets_first]
    cases hsort : pySorted ((idx.map Prod.fst).filter (fun n => pfx.isPrefixOf n)) with
    | nil => simp
    | cons n0 ns =>
      simp only [List.take_succ_cons, List.take_zero, List.flatMap_cons,
        List.flatMap_nil, List.append_nil, List.length_take]
      omega
  · intro t ht
    rw [dynamicTargets_first] at ht
    revert ht
    cases hsort : pySorted ((idx.map Prod.fst).filter (fun n => pfx.isPrefixOf n)) with
    | nil => intro ht; simp at ht
    | cons n0 ns =>
      intro ht
      simp only [List.take_succ_cons, List.take_zero, List.flatMap_cons,
        List.flatMap_nil, List.append_nil] at ht
      obtain ⟨hn0mem, hn0min⟩ := pySorted_head_min _ n0 ns hsort
      obtain ⟨h1, h2⟩ := List.mem_filter.mp hn0mem
      refine ⟨n0, h1, h2, ?_, ?_, ?_⟩
      · intro n hn hp
        exact hn0min n (List.mem_filter.mpr ⟨hn, hp⟩)
      · revert ht
        cases hfq : pySorted ((alookup idx n0).getD []) with
        | nil => intro ht; simp at ht
        | cons f0 fs =>
          intro ht
          simp only [List.take_succ_cons, List.take_zero, List.mem_singleton] at ht
          rw [ht]
          exact (pySorted_mem _ _).mp (by rw [hfq]; simp)
      · revert ht
        cases hfq : pySorted ((alookup idx n0).getD []) with
        | nil => intro ht; simp at ht
        | cons f0 fs =>
          intro ht
          simp only [List.take_succ_cons, List.take_zero, List.mem_singleton] at ht
          intro u hu
          rw [ht]
          exact (pySorted_head_min _ f0 fs hfq).2 u hu

/-- Witness for C4: a two-name index resolved under both modes. -/
theorem C4_dynamic_dispatch_modes_witness :
    (toChars "M1::CycleModel_M1") ∈
      dynamicTargets [(toChars "cyclemodel_m2", [toChars "M2::CycleModel_M2"]),
        (toChars "cyclemodel_m1", [toChars "M1::CycleModel_M1"])]
        (toChars "cyclemodel_m") true ∧
    (toChars "M1::CycleModel_M1") ∈
      dynamicTargets [(toChars "cyclemodel_m2", [toChars "M2::CycleModel_M2"]),
        (toChars "cyclemodel_m1", [toChars "M1::CycleModel_M1"])]
        (toChars "cyclemodel_m") false := by
  constructor
  · exact ((C4_dynamic_dispatch_modes
      [(toChars "cyclemodel_m2", [toChars "M2::CycleModel_M2"]),
        (toChars "cyclemodel_m1", [toChars "M1::CycleModel_M1"])]
      (toChars "cyclemodel_m")).1 (toChars "M1::CycleModel_M1")).mpr
      ⟨toChars "cyclemodel_m1", by decide, by decide, by decide⟩
  · decide

/-! ### BFS correctness (`compute_call_depths_from_main`) -/

lemma reachIn_nil_seeds {g : CallGraph} {j : Nat} {n : Str} :
    ¬ ReachIn g [] j n := by
  intro h
  induction h with
  | seed s hs => simp at hs
  | step p c d hp hc ih => exact ih

lemma alookup_isSome_iff_mem {α : Type} (m : List (Str × α)) (k : Str) :
    (alookup m k).isSome = true ↔ k ∈ m.map Prod.fst := by
  induction m with
  | nil => simp [alookup]
  | cons e rest ih =>
    obtain ⟨k', v⟩ := e
    simp only [alookup, List.map_cons, List.mem_cons]
    split_ifs with h
    · simp only [Option.isSome_some, true_iff]
      exact Or.inl h.symm
    · simp only [ih]
      constructor
      · exact Or.inr
      · rintro (rfl | hm)
        · exact absurd rfl h
        · exact hm

lemma alookup_eq_none_iff {α : Type} (m : List (Str × α)) (k : Str) :
    alookup m k = none ↔ k ∉ m.map Prod.fst := by
  constructor
  · intro h hmem
    have := (alookup_isSome_iff_mem m k).mpr hmem
    rw [h] at this
    simp at this
  · intro h
    by_contra hne
    have hs : (alookup m k).isSome = true := by
      cases hx : alookup m k
      · exact absurd hx hne
      · rfl
    exact h ((alookup_isSome_iff_mem m k).mp hs)

/-- Inserting a binding for a fresh key does not disturb any existing
binding. -/
lemma alookup_cons_of_ne {α : Type} (m : List (Str × α)) {c k : Str} (v : α)
    (hne : c ≠ k) : alookup ((c, v) :: m) k = alookup m k := by
  simp [alookup, hne]

lemma alookup_cons_self {α : Type} (m : List (Str × α)) (c : Str) (v : α) :
    alookup ((c, v) :: m) c = some v := by
  simp [alookup]

/-- A key already bound is distinct from a fresh key. -/
lemma ne_of_assigned_of_fresh {α : Type} {m : List (Str × α)} {k c : Str}
    (hk : (alookup m k).isSome = true) (hc : alookup m c = none) : c ≠ k := by
  intro he
  subst he
  rw [hc] at hk
  simp at hk

lemma qVals_append (m : DepthMap) (q1 q2 : List Str) :
    qVals m (q1 ++ q2) = qVals m q1 ++ qVals m q2 := List.map_append _ _ _

/-- Inserting a fresh binding leaves the values of assigned nodes unchanged. -/
lemma qVals_insert_fresh {m : DepthMap} {q : List Str} {c : Str} (v : Nat)
    (hq : ∀ y ∈ q, (alookup m y).isSome = true) (hc : alookup m c = none) :
    qVals ((c, v) :: m) q = qVals m q := by
  unfold qVals
  apply List.map_congr_left
  intro y hy
  rw [alookup_cons_of_ne m v (ne_of_assigned_of_fresh (hq y hy) hc)]

lemma pairwise_le_of_all_eq {l : List Nat} (hl : ∀ a ∈ l, a = 0) :
    List.Pairwise (· ≤ ·) l := by
  induction l with
  | nil => exact List.Pairwise.nil
  | cons x xs ih =>
    refine List.Pairwise.cons ?_ (ih (fun a ha => hl a (by simp [ha])))
    intro b hb
    rw [hl x (by simp), hl b (by simp [hb])]

lemma isSome_cons {α : Type} (m : List (Str × α)) (c k : Str) (v : α)
    (h : (alookup m k).isSome = true) : (alookup ((c, v) :: m) k).isSome = true := by
  by_cases he : c = k <;> simp [alookup, he, h]

/-- Destruct a reachability derivation. -/
lemma reachIn_elim {g : CallGraph} {S : List Str} {j : Nat} {n : Str}
    (h : ReachIn g S j n) :
    (j = 0 ∧ n ∈ S) ∨ (∃ j' p, j = j' + 1 ∧ ReachIn g S j' p ∧ n ∈ adj g p) := by
  cases h with
  | seed s hs => exact Or.inl ⟨rfl, hs⟩
  | step p c d hp hc => exact Or.inr ⟨d, p, rfl, hp, hc⟩

lemma mem_qVals_of_lookup {m : DepthMap} {q : List Str} {y : Str} {dy : Nat}
    (hy : y ∈ q) (hdy : alookup m y = some dy) : dy ∈ qVals m q := by
  unfold qVals
  exact List.mem_map.mpr ⟨y, hy, by rw [hdy]; rfl⟩

/-- Assigning a fresh neighbor `c` of the dequeued node `x` at depth `d + 1`
and appending it to the queue preserves the mid-processing invariant; in
particular `d + 1` is the exact BFS distance of `c`. -/
lemma midinv_insert {g : CallGraph} {S : List Str} {x : Str} {d : Nat}
    {m : DepthMap} {q : List Str} {c : Str}
    (inv : MidInv g S x d m q) (hcadj : c ∈ adj g x) (hfresh : alookup m c = none) :
    MidInv g S x d ((c, d + 1) :: m) (q ++ [c]) := by
  have hxreach : ReachIn g S d x := (inv.vals x d inv.xval).1
  have hxmin : ∀ j, ReachIn g S j x → d ≤ j := (inv.vals x d inv.xval).2
  have hcx : c ≠ x := ne_of_assigned_of_fresh (by rw [inv.xval]; rfl) hfresh
  have hq_ne_c : ∀ y ∈ q, c ≠ y :=
    fun y hy => ne_of_assigned_of_fresh (inv.qDom y hy) hfresh
  have hqvals : qVals ((c, d + 1) :: m) (q ++ [c]) = qVals m q ++ [d + 1] := by
    rw [qVals_append, qVals_insert_fresh (d + 1) inv.qDom hfresh]
    unfold qVals
    simp [alookup_cons_self]
  -- the exact-distance argument for the new node
  have hmin_c : ∀ j, ReachIn g S j c → d + 1 ≤ j := by
    intro j hj
    by_contra hlt
    have hjd : j ≤ d := by omega
    rcases reachIn_elim hj with ⟨hj0, hcS⟩ | ⟨j', p, hjsucc, hp, hpc⟩
    · have := inv.seedsDom c hcS
      rw [hfresh] at this
      simp at this
    · have hj' : j' < d := by omega
      have hplow := inv.lowp p j' hp hj' (fun y hy dy hdy =>
        lt_of_lt_of_le hj' (inv.lb dy (mem_qVals_of_lookup hy hdy)))
      have hpx : p ≠ x := by
        intro he
        subst he
        have := hxmin j' hp
        omega
      have := inv.closedX p hplow.1 hplow.2 hpx c hpc
      rw [hfresh] at this
      simp at this
  refine ⟨?_, ?_, ?_, ?_, ?_, ?_, ?_, ?_, ?_⟩
  · -- vals
    intro n k hk
    by_cases hnc : c = n
    · subst hnc
      rw [alookup_cons_self] at hk
      have hkd : k = d + 1 := by
        injection hk with hk'
        exact hk'.symm
      subst hkd
      exact ⟨ReachIn.step x c d hxreach hcadj, hmin_c⟩
    · rw [alookup_cons_of_ne m (d + 1) hnc] at hk
      exact inv.vals n k hk
  · -- seedsDom
    exact fun s hs => isSome_cons m c s (d + 1) (inv.seedsDom s hs)
  · -- qDom
    intro y hy
    rcases List.mem_append.mp hy with hyq | hyc
    · exact isSome_cons m c y (d + 1) (inv.qDom y hyq)
    · rw [List.mem_singleton.mp hyc, alookup_cons_self]
      rfl
  · -- sorted
    rw [hqvals]
    rw [List.pairwise_append]
    exact ⟨inv.sorted, List.pairwise_singleton _ _,
      fun a ha b hb => by rw [List.mem_singleton.mp hb]; exact inv.ub a ha⟩
  · -- lb
    rw [hqvals]
    intro v hv
    rcases List.mem_append.mp hv with hvq | hvc
    · exact inv.lb v hvq
    · rw [List.mem_singleton.mp hvc]; omega
  · -- ub
    rw [hqvals]
    intro v hv
    rcases List.mem_append.mp hv with hvq | hvc
    · exact inv.ub v hvq
    · rw [List.mem_singleton.mp hvc]
  · -- closedX
    intro p hpass hpq hpx c' hc'
    have hpc : c ≠ p := fun he => hpq (by rw [← he]; simp)
    rw [alookup_cons_of_ne m (d + 1) hpc] at hpass
    exact isSome_cons m c c' (d + 1)
      (inv.closedX p hpass (fun hmem => hpq (by simp [hmem])) hpx c' hc')
  · -- xval
    rw [alookup_cons_of_ne m (d + 1) hcx]
    exact inv.xval
  · -- lowp (only demanded below depth d)
    intro n j hj hjd hH
    have hHq : ∀ y ∈ q, ∀ dy, alookup m y = some dy → j < dy := by
      intro y hy dy hdy
      refine hH y (by simp [hy]) dy ?_
      rw [alookup_cons_of_ne m (d + 1) (hq_ne_c y hy)]
      exact hdy
    have hold := inv.lowp n j hj hjd hHq
    refine ⟨isSome_cons m c n (d + 1) hold.1, ?_⟩
    intro hmem
    rcases List.mem_append.mp hmem with hmq | hmc
    · exact hold.2 hmq
    · exact ne_of_assigned_of_fresh hold.1 hfresh (List.mem_singleton.mp hmc).symm

/-- Processing a dequeued node's full neighbor list preserves the
mid-processing invariant, assigns every neighbor, and keeps previously
assigned nodes assigned. -/
lemma processNeighbors_spec (g : CallGraph) (S : List Str) (x : Str) (d : Nat) :
    ∀ (cs : List Str) (m : DepthMap) (q : List Str), MidInv g S x d m q →
    (∀ c ∈ cs, c ∈ adj g x) →
    MidInv g S x d (processNeighbors d cs m q).1 (processNeighbors d cs m q).2 ∧
    (∀ c ∈ cs, (alookup (processNeighbors d cs m q).1 c).isSome = true) ∧
    (∀ n, (alookup m n).isSome = true →
      (alookup (processNeighbors d cs m q).1 n).isSome = true) := by
  intro cs
  induction cs with
  | nil =>
    intro m q inv _
    exact ⟨inv, by simp, fun n h => by simpa [processNeighbors] using h⟩
  | cons c cs ih =>
    intro m q inv hadj
    cases hc : alookup m c with
    | some v =>
      have heq : processNeighbors d (c :: cs) m q = processNeighbors d cs m q := by
        simp [processNeighbors, hc]
      rw [heq]
      obtain ⟨inv', hall, hpres⟩ := ih m q inv (fun c' h' => hadj c' (by simp [h']))
      refine ⟨inv', ?_, hpres⟩
      intro c' hc'
      rcases List.mem_cons.mp hc' with rfl | h'
      · exact hpres c' (by rw [hc]; rfl)
      · exact hall c' h'
    | none =>
      have heq : processNeighbors d (c :: cs) m q
          = processNeighbors d cs ((c, d + 1) :: m) (q ++ [c]) := by
        simp [processNeighbors, hc]
      rw [heq]
      have inv' := midinv_insert inv (hadj c (by simp)) hc
      obtain ⟨inv'', hall, hpres⟩ := ih _ _ inv' (fun c' h' => hadj c' (by simp [h']))
      refine ⟨inv'', ?_, ?_⟩
      · intro c' hc'
        rcases List.mem_cons.mp hc' with rfl | h'
        · exact hpres c' (by rw [alookup_cons_self]; rfl)
        · exact hall c' h'
      · intro n hn
        exact hpres n (isSome_cons m c n (d + 1) hn)

/-- Processing neighbors never increases the BFS measure
`2·|unassigned| + |queue|`. -/
lemma processNeighbors_measure (U : Finset Str) (d : Nat) :
    ∀ (cs : List Str) (m : DepthMap) (q : List Str), (∀ c ∈ cs, c ∈ U) →
    2 * (U \ domF (processNeighbors d cs m q).1).card
        + (processNeighbors d cs m q).2.length
      ≤ 2 * (U \ domF m).card + q.length := by
  intro cs
  induction cs with
  | nil => intro m q _; simp [processNeighbors]
  | cons c cs ih =>
    intro m q hU
    cases hc : alookup m c with
    | some v =>
      rw [show processNeighbors d (c :: cs) m q = processNeighbors d cs m q by
        simp [processNeighbors, hc]]
      exact ih m q (fun c' h' => hU c' (by simp [h']))
    | none =>
      rw [show processNeighbors d (c :: cs) m q
          = processNeighbors d cs ((c, d + 1) :: m) (q ++ [c]) by
        simp [processNeighbors, hc]]
      refine (ih _ _ (fun c' h' => hU c' (by simp [h']))).trans ?_
      have hcU : c ∈ U := hU c (by simp)
      have hcdom : c ∉ domF m := by
        simp only [domF, List.mem_toFinset]
        exact (alookup_eq_none_iff m c).mp hc
      have hdomF : domF ((c, d + 1) :: m) = insert c (domF m) := by
        simp [domF]
      rw [hdomF]
      have hmemdiff : c ∈ U \ domF m := Finset.mem_sdiff.mpr ⟨hcU, hcdom⟩
      have hsdiff : U \ insert c (domF m) = (U \ domF m).erase c :=
        Finset.sdiff_insert U (domF m) c
      rw [hsdiff, Finset.card_erase_of_mem hmemdiff]
      have hpos : 0 < (U \ domF m).card := Finset.card_pos.mpr ⟨c, hmemdiff⟩
      simp only [List.length_append, List.length_cons, List.length_nil]
      omega

/-- Popping the queue head turns the loop invariant into the mid-processing
invariant for that node. -/
lemma loopinv_pop {g : CallGraph} {S : List Str} {m : DepthMap} {x : Str}
    {rest : List Str} (inv : LoopInv g S m (x :: rest)) :
    ∃ d, alookup m x = some d ∧ MidInv g S x d m rest := by
  obtain ⟨d, hd⟩ := Option.isSome_iff_exists.mp (inv.qDom x (by simp))
  refine ⟨d, hd, ?_⟩
  have hqvals_cons : qVals m (x :: rest) = d :: qVals m rest := by
    unfold qVals
    simp [hd]
  have hsorted := inv.sorted
  rw [hqvals_cons] at hsorted
  have hhead_le : ∀ v ∈ qVals m rest, d ≤ v := (List.pairwise_cons.mp hsorted).1
  have hrest_sorted := (List.pairwise_cons.mp hsorted).2
  have hub : ∀ v ∈ qVals m rest, v ≤ d + 1 := by
    intro v hv
    exact inv.window v (by rw [hqvals_cons]; simp [hv]) d (by rw [hqvals_cons]; simp)
  refine ⟨inv.vals, inv.seedsDom, fun y hy => inv.qDom y (by simp [hy]),
    hrest_sorted, hhead_le, hub, ?_, hd, ?_⟩
  · intro p hpass hpq hpx c hc
    refine inv.closed p hpass ?_ c hc
    intro hmem
    rcases List.mem_cons.mp hmem with rfl | hmem'
    · exact hpx rfl
    · exact hpq hmem'
  · intro n j hj hjd hH
    have hold := inv.lowp n j hj ?_
    · exact ⟨hold.1, fun hmem => hold.2 (by simp [hmem])⟩
    · intro y hy dy hdy
      rcases List.mem_cons.mp hy with rfl | hy'
      · rw [hd] at hdy
        injection hdy with he
        omega
      · exact hH y hy' dy hdy

/-- After the dequeued node's whole neighbor list has been assigned, the
mid-processing invariant restores the loop invariant for the new queue. -/
lemma midinv_to_loopinv {g : CallGraph} {S : List Str} {x : Str} {d : Nat}
    {m : DepthMap} {q : List Str} (inv : MidInv g S x d m q)
    (hadj : ∀ c ∈ adj g x, (alookup m c).isSome = true) :
    LoopInv g S m q := by
  have hclosed : ∀ p, (alookup m p).isSome = true → p ∉ q →
      ∀ c ∈ adj g p, (alookup m c).isSome = true := by
    intro p hpass hpq c hc
    by_cases hpx : p = x
    · subst hpx
      exact hadj c hc
    · exact inv.closedX p hpass hpq hpx c hc
  -- completeness by strong induction when every queue value exceeds the
  -- reachability depth
  have hcomplete : ∀ j n, ReachIn g S j n →
      (∀ y ∈ q, ∀ dy, alookup m y = some dy → j < dy) →
      (alookup m n).isSome = true := by
    intro j
    induction j using Nat.strong_induction_on with
    | _ j ihj =>
      intro n hj hH
      rcases reachIn_elim hj with ⟨hj0, hnS⟩ | ⟨j', p, hjsucc, hp, hpn⟩
      · exact inv.seedsDom n hnS
      · subst hjsucc
        by_cases hjd : j' + 1 ≤ d
        · -- strictly below d: the mid invariant applies to the predecessor
          have hplow := inv.lowp p j' hp (by omega) (fun y hy dy hdy => by
            have := hH y hy dy hdy
            omega)
          by_cases hpx : p = x
          · subst hpx
            exact hadj n hpn
          · exact inv.closedX p hplow.1 hplow.2 hpx n hpn
        · -- at or above d: the predecessor is assigned by induction and is
          -- not queued because queued values are at most d + 1
          have hpass : (alookup m p).isSome = true :=
            ihj j' (by omega) p hp (fun y hy dy hdy => by
              have h1 := hH y hy dy hdy
              omega)
          have hpq : p ∉ q := by
            intro hmem
            obtain ⟨k, hk⟩ := Option.isSome_iff_exists.mp hpass
            have hkmin := (inv.vals p k hk).2 j' hp
            have hk1 := hH p hmem k hk
            have hub := inv.ub k (mem_qVals_of_lookup hmem hk)
            omega
          by_cases hpx : p = x
          · subst hpx
            exact hadj n hpn
          · exact inv.closedX p hpass hpq hpx n hpn
  refine ⟨inv.vals, inv.seedsDom, inv.qDom, inv.sorted, ?_, hclosed, ?_⟩
  · -- window from the [d, d+1] bounds
    intro a ha b hb
    have := inv.lb b hb
    have := inv.ub a ha
    omega
  · -- lowp
    intro n j hj hH
    have hnass : (alookup m n).isSome = true := hcomplete j n hj hH
    refine ⟨hnass, ?_⟩
    intro hmem
    obtain ⟨k, hk⟩ := Option.isSome_iff_exists.mp hnass
    have hkmin := (inv.vals n k hk).2 j hj
    have := hH n hmem k hk
    omega

/-- Every callee stored in the graph is in the universe list. -/
lemma adj_subset_universe (g : CallGraph) (x : Str) :
    ∀ c ∈ adj g x, c ∈ universeList g := by
  unfold adj
  induction g with
  | nil => simp [alookup]
  | cons e rest ih =>
    obtain ⟨k, vs⟩ := e
    simp only [alookup, universeList, List.foldr_cons]
    split_ifs with h
    · intro c hc
      simp only [Option.getD_some] at hc
      simp [hc]
    · intro c hc
      have := ih c hc
      simp only [universeList] at this
      simp [this]

/-- The BFS loop with enough fuel drains the queue while maintaining the
loop invariant; in particular it never actually runs out of fuel. -/
lemma bfsLoop_spec (g : CallGraph) (S : List Str) :
    ∀ (fuel : Nat) (m : DepthMap) (q : List Str), LoopInv g S m q →
    2 * ((universeList g).toFinset \ domF m).card + q.length ≤ fuel →
    LoopInv g S (bfsLoop g fuel m q) [] := by
  intro fuel
  induction fuel with
  | zero =>
    intro m q inv hfuel
    have hq : q = [] := by
      cases q with
      | nil => rfl
      | cons a as => simp [List.length_cons] at hfuel
    subst hq
    exact inv
  | succ fuel ih =>
    intro m q inv hfuel
    cases q with
    | nil => exact inv
    | cons x rest =>
      obtain ⟨d, hd, midinv⟩ := loopinv_pop inv
      obtain ⟨midinv', hall, hpres⟩ :=
        processNeighbors_spec g S x d (adj g x) m rest midinv (fun c hc => hc)
      have hloop' := midinv_to_loopinv midinv' (fun c hc => hall c hc)
      have hmeas := processNeighbors_measure ((universeList g).toFinset) d (adj g x) m rest
        (fun c hc => List.mem_toFinset.mpr (adj_subset_universe g x c hc))
      have hstep : bfsLoop g (fuel + 1) m (x :: rest)
          = bfsLoop g fuel (processNeighbors d (adj g x) m rest).1
              (processNeighbors d (adj g x) m rest).2 := by
        simp [bfsLoop, hd]
      rw [hstep]
      simp only [List.length_cons] at hfuel
      exact ih _ _ hloop' (by omega)

lemma alookup_seed_map (S : List Str) (n : Str) :
    alookup (S.map fun p => (p, 0)) n = if n ∈ S then some 0 else none := by
  induction S with
  | nil => simp [alookup]
  | cons s ss ih =>
    simp only [List.map_cons, alookup]
    by_cases h : s = n
    · subst h
      simp
    · rw [if_neg h, ih]
      by_cases hn : n ∈ ss
      · rw [if_pos hn, if_pos (by simp [hn])]
      · rw [if_neg hn, if_neg ?_]
        intro hmem
        rcases List.mem_cons.mp hmem with he | he
        · exact h he.symm
        · exact hn he

/-- The seeded initial state satisfies the loop invariant. -/
lemma loopinv_init (g : CallGraph) (S : List Str) (hne : S ≠ []) :
    LoopInv g S (S.map fun p => (p, 0)) S := by
  have hlookup := alookup_seed_map S
  have hq0 : ∀ v ∈ qVals (S.map fun p => (p, 0)) S, v = 0 := by
    intro v hv
    obtain ⟨y, hy, rfl⟩ := List.mem_map.mp hv
    rw [hlookup y, if_pos hy]
    rfl
  refine ⟨?_, ?_, ?_, ?_, ?_, ?_, ?_⟩
  · intro n k hk
    rw [hlookup n] at hk
    split_ifs at hk with hmem
    · injection hk with he
      rw [← he]
      exact ⟨ReachIn.seed n hmem, fun j _ => Nat.zero_le j⟩
  · intro s hs
    rw [hlookup s, if_pos hs]
    rfl
  · intro y hy
    rw [hlookup y, if_pos hy]
    rfl
  · exact pairwise_le_of_all_eq hq0
  · intro a ha b hb
    rw [hq0 a ha]
    omega
  · intro p hpass hpq c hc
    by_cases hmem : p ∈ S
    · exact absurd hmem hpq
    · rw [hlookup p, if_neg hmem] at hpass
      simp at hpass
  · intro n j hj hH
    obtain ⟨s0, hs0⟩ := List.exists_mem_of_ne_nil S hne
    have := hH s0 hs0 0 (by rw [hlookup s0, if_pos hs0])
    omega

/-- Soundness and completeness of `compute_call_depths_from_main`: every
assigned depth is the least number of edges from an entry point, and every
node reachable from an entry point is assigned. -/
lemma computeCallDepths_spec (g : CallGraph) :
    (∀ n k, alookup (computeCallDepthsFromMain g) n = some k →
      ReachIn g (mainCandidates g) k n ∧
        ∀ j, ReachIn g (mainCandidates g) j n → k ≤ j) ∧
    (∀ n j, ReachIn g (mainCandidates g) j n →
      (alookup (computeCallDepthsFromMain g) n).isSome = true) := by
  by_cases hc : mainCandidates g = []
  · rw [show computeCallDepthsFromMain g = [] by simp [computeCallDepthsFromMain, hc]]
    constructor
    · intro n k hk
      simp [alookup] at hk
    · intro n j hj
      rw [hc] at hj
      exact absurd hj reachIn_nil_seeds
  · have heq : computeCallDepthsFromMain g
        = bfsLoop g (2 * (universeList g).length + (mainCandidates g).length)
            ((mainCandidates g).map fun p => (p, 0)) (mainCandidates g) := by
      simp [computeCallDepthsFromMain, hc]
    have hinit := loopinv_init g (mainCandidates g) hc
    have hfuel : 2 * ((universeList g).toFinset
          \ domF ((mainCandidates g).map fun p => (p, 0))).card
          + (mainCandidates g).length
        ≤ 2 * (universeList g).length + (mainCandidates g).length := by
      have h1 : ((universeList g).toFinset
            \ domF ((mainCandidates g).map fun p => (p, 0))).card
          ≤ (universeList g).toFinset.card :=
        Finset.card_le_card (Finset.sdiff_subset)
      have h2 := (universeList g).toFinset_card_le
      omega
    have hfinal := bfsLoop_spec g (mainCandidates g) _ _ _ hinit hfuel
    rw [heq]
    constructor
    · exact hfinal.vals
    · intro n j hj
      exact (hfinal.lowp n j hj (by intro y hy; simp at hy)).1

/-- C5: For every call graph — cycles and self-loops included — the BFS
of `compute_call_depths_from_main` (a total function here, so it terminates)
assigns each node reachable from an entry point exactly one finite depth:
the map holds `some d` for a node exactly when the node is reachable and `d`
is the least edge-distance from the nearest entry point (the first-assignment
discipline of the source, `if callee not in depth`, is what makes the
assigned depth the least one). -/
theorem C5_bfs_terminates_shortest (g : CallGraph) (n : Str) (d : Nat) :
    (alookup (computeCallDepthsFromMain g) n = some d ↔
      ReachIn g (mainCandidates g) d n ∧
        ∀ j, ReachIn g (mainCandidates g) j n → d ≤ j) ∧
    ((alookup (computeCallDepthsFromMain g) n).isSome = true ↔
      ∃ j, ReachIn g (mainCandidates g) j n) := by
  obtain ⟨hsound, hcomp⟩ := computeCallDepths_spec g
  constructor
  · constructor
    · exact hsound n d
    · rintro ⟨hd, hmin⟩
      have hs := hcomp n d hd
      obtain ⟨k, hk⟩ := Option.isSome_iff_exists.mp hs
      obtain ⟨hkre, hkmin⟩ := hsound n k hk
      have h1 := hmin k hkre
      have h2 := hkmin d hd
      rw [hk]
      congr 1
      omega
  · constructor
    · intro hs
      obtain ⟨k, hk⟩ := Option.isSome_iff_exists.mp hs
      exact ⟨k, (hsound n k hk).1⟩
    · rintro ⟨j, hj⟩
      exact hcomp n j hj

/-- C2: On the two-file project — `A` and `B` declared across two files,
`A`'s body referencing `B` by name and `Main`'s body referencing `A` — the
call graph holds the edges `Main→A` and `A→B`, and the depth map assigns
`Main` depth 0, `A` depth 1, `B` depth 2. -/
theorem C2_two_file_call_chain :
    (toChars "MainModule::A") ∈ adj twoFileGraph (toChars "MainModule::Main") ∧
    (toChars "Helpers::B") ∈ adj twoFileGraph (toChars "MainModule::A") ∧
    alookup twoFileDepths (toChars "MainModule::Main") = some 0 ∧
    alookup twoFileDepths (toChars "MainModule::A") = some 1 ∧
    alookup twoFileDepths (toChars "Helpers::B") = some 2 := by
  decide

/-- Counterexample to **C3** as stated: in the single-file project the
procedure `MainModule::Main` is registered and its name qualifies as an
entry point, yet — because it makes no calls and therefore is not a caller
key of the call graph — `compute_call_depths_from_main` does not seed it:
the returned depth map has no entry for it (the claim asserts it is seeded
at depth 0). -/
theorem C3_entry_points_counterexample :
    (toChars "MainModule::Main") ∈ stationState.1.map Prod.fst ∧
    isMainName (toChars "MainModule::Main") = true ∧
    alookup stationDepths (toChars "MainModule::Main") = none := by
  decide

/-- C3 (amended): The entry points of the reachability analysis are
exactly the call graph's *caller keys* (procedures with at least one
outgoing edge) whose bare name is `main` (case-insensitive) or whose
fully-qualified name ends in `::main` — not all registered procedures; each
such entry point is assigned depth 0 in the returned map; when no such
caller exists the depth map is empty; and an empty depth map yields
`file_max_call_depth = 0`, whose call-depth penalty is 0. -/
theorem C3_entry_points_amended (g : CallGraph) :
    (∀ p, p ∈ mainCandidates g ↔ (p ∈ g.map Prod.fst ∧ isMainName p = true)) ∧
    (mainCandidates g = [] → computeCallDepthsFromMain g = []) ∧
    (∀ p ∈ mainCandidates g, alookup (computeCallDepthsFromMain g) p = some 0) ∧
    (∀ procs : List ProcInfo, fileMaxCallDepth procs [] = 0) ∧
    callDepthPenalty 0 = 0 := by
  refine ⟨?_, ?_, ?_, ?_, ?_⟩
  · intro p
    simp [mainCandidates, List.mem_filter]
  · intro hc
    simp [computeCallDepthsFromMain, hc]
  · intro p hp
    obtain ⟨hsound, hcomp⟩ := computeCallDepths_spec g
    have hre : ReachIn g (mainCandidates g) 0 p := ReachIn.seed p hp
    obtain ⟨k, hk⟩ := Option.isSome_iff_exists.mp (hcomp p 0 hre)
    have := (hsound p k hk).2 0 hre
    rw [hk]
    congr 1
    omega
  · intro procs
    show procs.foldl _ 0 = 0
    have : ∀ acc : Nat, procs.foldl (fun acc p =>
        match alookup ([] : DepthMap) p.fqname with
        | some d => max acc d
        | none => acc) acc = acc := by
      induction procs with
      | nil => intro acc; rfl
      | cons p ps ih =>
        intro acc
        simp only [List.foldl_cons]
        exact ih acc
    exact this 0
  · norm_num [callDepthPenalty]

/-- Witness for the amended C3: a caller named `M::Main` is seeded at 0. -/
theorem C3_entry_points_amended_witness :
    alookup (computeCallDepthsFromMain [(toChars "M::Main", [toChars "M::A"])])
      (toChars "M::Main") = some 0 :=
  (C3_entry_points_amended [(toChars "M::Main", [toChars "M::A"])]).2.2.1
    (toChars "M::Main") (by decide)

/-- C8: Analyzing the single file whose `Main` holds one `IF`/`ENDIF`
block and no comment lines yields `simple_complexity = 2`,
`max_nesting = 1`, `comment_lines = 0`, and an unreachable-procedure count
of 0 (`main` is never counted as unreachable). -/
theorem C8_single_main_file :
    (stationState.2.2.map fun fs =>
      (fs.simpleComplexity, fs.maxNesting, fs.commentLines)) = [(2, 1, 0)] ∧
    unreachableCount (procsOfFile stationState.1 (toChars "Station.mod"))
      stationDepths (allDynamicPrefixes stationState.2.2) = 0 := by
  decide

/-! ### The registry/index invariant (C10) -/

lemma mem_addUnique (l : List Str) (a x : Str) : x ∈ addUnique l a ↔ x ∈ l ∨ x = a := by
  unfold addUnique
  split_ifs with h
  · constructor
    · exact Or.inl
    · rintro (hx | rfl)
      · exact hx
      · exact h
  · simp [List.mem_append]

lemma amodify_map_fst {α : Type} (l : List (Str × α)) (k : Str) (f : α → α) :
    (amodify l k f).map Prod.fst = l.map Prod.fst := by
  induction l with
  | nil => rfl
  | cons e rest ih =>
    obtain ⟨k', v⟩ := e
    simp only [amodify]
    split_ifs with h
    · simp [h]
    · simp [ih]

lemma mem_map_fst_aset {α : Type} (l : List (Str × α)) (k : Str) (v : α) (x : Str) :
    x ∈ (aset l k v).map Prod.fst ↔ x = k ∨ x ∈ l.map Prod.fst := by
  induction l with
  | nil =>
    simp only [aset, List.map_cons, List.map_nil, List.mem_singleton,
      List.not_mem_nil, or_false]
  | cons e rest ih =>
    obtain ⟨k', v'⟩ := e
    simp only [aset]
    split_ifs with h
    · subst h
      simp only [List.map_cons, List.mem_cons]
      tauto
    · simp only [List.map_cons, List.mem_cons, ih]
      tauto

lemma alookup_addToSetMap (idx : Index) (b v : Str) (bare : Str) :
    alookup (addToSetMap idx b v) bare =
      if bare = b then some (addUnique ((alookup idx b).getD []) v)
      else alookup idx bare := by
  induction idx with
  | nil =>
    by_cases h : bare = b
    · subst h
      simp [addToSetMap, alookup, addUnique]
    · simp [addToSetMap, alookup, h, Ne.symm h]
  | cons e rest ih =>
    obtain ⟨k, vs⟩ := e
    by_cases hkb : k = b
    · subst hkb
      by_cases hb : bare = k
      · subst hb
        simp [addToSetMap, alookup]
      · simp [addToSetMap, alookup, hb, Ne.symm hb]
    · by_cases hk : k = bare
      · subst hk
        simp [addToSetMap, alookup, hkb]
      · simp [addToSetMap, alookup, hkb, hk, ih]

lemma idxInv_amodify {reg : Registry} {idx : Index} (h : IdxInv reg idx)
    (k : Str) (f : ProcInfo → ProcInfo) : IdxInv (amodify reg k f) idx := by
  intro bare fqs hfqs fq hfq
  rw [amodify_map_fst]
  exact h bare fqs hfqs fq hfq

/-- Registering a procedure extends the registry and index together,
preserving the invariant. -/
lemma idxInv_register {reg : Registry} {idx : Index} (h : IdxInv reg idx)
    (fq : Str) (pinfo : ProcInfo) (bare : Str) :
    IdxInv (aset reg fq pinfo) (addToSetMap idx bare fq) := by
  intro bare' fqs hfqs x hx
  rw [mem_map_fst_aset]
  rw [alookup_addToSetMap] at hfqs
  by_cases hb : bare' = bare
  · rw [if_pos hb] at hfqs
    injection hfqs with he
    rw [← he] at hx
    rcases (mem_addUnique _ _ _).mp hx with hold | heq
    · cases hl : alookup idx bare with
      | none =>
        rw [hl] at hold
        simp at hold
      | some fqs0 =>
        rw [hl] at hold
        exact Or.inr (h bare fqs0 hl x hold)
    · exact Or.inl heq
  · rw [if_neg hb] at hfqs
    exact Or.inr (h bare' fqs hfqs x hx)

lemma scanVars_registry (line stripped : Str) (declMatch : Option Str) (st : ScanState) :
    (scanVars line stripped declMatch st).registry = st.registry := by
  unfold scanVars
  dsimp only
  repeat' split
  all_goals rfl

lemma scanVars_nameToFq (line stripped : Str) (declMatch : Option Str) (st : ScanState) :
    (scanVars line stripped declMatch st).nameToFq = st.nameToFq := by
  unfold scanVars
  dsimp only
  repeat' split
  all_goals rfl

lemma scanComplexity_registry (line upper : Str) (st : ScanState) :
    (scanComplexity line upper st).registry = st.registry := by
  unfold scanComplexity
  dsimp only
  repeat' split
  all_goals rfl

lemma scanComplexity_nameToFq (line upper : Str) (st : ScanState) :
    (scanComplexity line upper st).nameToFq = st.nameToFq := by
  unfold scanComplexity
  dsimp only
  repeat' split
  all_goals rfl

lemma applyModuleStart_registry (excl : Bool) (line upper : Str) (st : ScanState) :
    ((applyModuleStart excl line upper st).1).registry = st.registry := by
  unfold applyModuleStart
  dsimp only
  repeat' split
  all_goals rfl

lemma applyModuleStart_nameToFq (excl : Bool) (line upper : Str) (st : ScanState) :
    ((applyModuleStart excl line upper st).1).nameToFq = st.nameToFq := by
  unfold applyModuleStart
  dsimp only
  repeat' split
  all_goals rfl

/-- A code line preserves the registry/index invariant: the only mutations
are in-place body extension and the simultaneous registration of a
procedure in both structures. -/
lemma scanCodeLine_idxInv (fp fstem : Str) (line stripped upper : Str) (st : ScanState)
    (h : IdxInv st.registry st.nameToFq) :
    IdxInv (scanCodeLine fp fstem line stripped upper st).registry
      (scanCodeLine fp fstem line stripped upper st).nameToFq := by
  unfold scanCodeLine
  dsimp only
  repeat' split
  all_goals
    simp only [scanVars_registry, scanVars_nameToFq,
      scanComplexity_registry, scanComplexity_nameToFq]
  all_goals
    first
    | exact h
    | exact idxInv_amodify h _ _
    | exact idxInv_register h _ _ _

/-- One line of the first pass preserves the registry/index invariant. -/
lemma scanLine_idxInv (excl : Bool) (fp fstem : Str) (st : ScanState) (line : Str)
    (h : IdxInv st.registry st.nameToFq) :
    IdxInv (scanLine excl fp fstem st line).registry
      (scanLine excl fp fstem st line).nameToFq := by
  unfold scanLine
  dsimp only
  have h1 : IdxInv ((applyModuleStart excl line (strUpper (pstrip line)) st).1).registry
      ((applyModuleStart excl line (strUpper (pstrip line)) st).1).nameToFq := by
    rw [applyModuleStart_registry, applyModuleStart_nameToFq]
    exact h
  repeat' split
  all_goals
    first
    | exact h1
    | exact scanCodeLine_idxInv _ _ _ _ _ _ h1

lemma firstPass_idxInv (excl : Bool) (fp fstem : Str) (lines : List Str)
    (reg : Registry) (idx : Index) (h : IdxInv reg idx) :
    IdxInv (analyzeFileFirstPass excl fp fstem lines reg idx).1
      (analyzeFileFirstPass excl fp fstem lines reg idx).2.1 := by
  unfold analyzeFileFirstPass
  have : ∀ (ls : List Str) (st : ScanState), IdxInv st.registry st.nameToFq →
      IdxInv (ls.foldl (scanLine excl fp fstem) st).registry
        (ls.foldl (scanLine excl fp fstem) st).nameToFq := by
    intro ls
    induction ls with
    | nil => intro st hst; exact hst
    | cons l ls ih =>
      intro st hst
      exact ih _ (scanLine_idxInv excl fp fstem st l hst)
  exact this lines (initScanState reg idx) h

lemma firstPassAll_idxInv (excl : Bool) (files : List FileInput) :
    IdxInv (firstPassAll excl files).1 (firstPassAll excl files).2.1 := by
  unfold firstPassAll
  have : ∀ (fs : List FileInput) (acc : Registry × Index × List FileStats),
      IdxInv acc.1 acc.2.1 →
      IdxInv (fs.foldl (fun acc f =>
          let (reg', idx', fstats) := analyzeFileFirstPass excl f.path f.stem f.lines acc.1 acc.2.1
          (reg', idx', acc.2.2 ++ [fstats])) acc).1
        (fs.foldl (fun acc f =>
          let (reg', idx', fstats) := analyzeFileFirstPass excl f.path f.stem f.lines acc.1 acc.2.1
          (reg', idx', acc.2.2 ++ [fstats])) acc).2.1 := by
    intro fs
    induction fs with
    | nil => intro acc hacc; exact hacc
    | cons f fs ih =>
      intro acc hacc
      exact ih _ (firstPass_idxInv excl f.path f.stem f.lines acc.1 acc.2.1 hacc)
  refine this files ([], [], []) ?_
  intro bare fqs hfqs
  simp [alookup] at hfqs

/-! ### Call-graph soundness from the invariant (C10) -/

lemma alookup_amodify {α : Type} (l : List (Str × α)) (k : Str) (f : α → α)
    (k' : Str) :
    alookup (amodify l k f) k' =
      if k = k' then (alookup l k).map f else alookup l k' := by
  induction l with
  | nil => by_cases h : k = k' <;> simp [amodify, alookup, h]
  | cons e rest ih =>
    obtain ⟨k0, v0⟩ := e
    by_cases h0 : k0 = k
    · by_cases hk : k = k'
      · have hk0 : k0 = k' := h0.trans hk
        simp [amodify, alookup, h0, hk, hk0]
      · have hk0 : ¬ k0 = k' := fun he => hk (h0.symm.trans he)
        simp [amodify, alookup, h0, hk, hk0]
    · by_cases hk0 : k0 = k'
      · have hkne : ¬ k = k' := fun he => h0 (hk0.trans he.symm)
        have hkne' : ¬ k' = k := fun he => hkne he.symm
        simp [amodify, alookup, h0, hk0, hkne, hkne']
      · simp [amodify, alookup, h0, hk0, ih]

lemma alookup_append {α : Type} (l1 l2 : List (Str × α)) (k : Str) :
    alookup (l1 ++ l2) k =
      match alookup l1 k with
      | some v => some v
      | none => alookup l2 k := by
  induction l1 with
  | nil => simp [alookup]
  | cons e rest ih =>
    obtain ⟨k0, v0⟩ := e
    simp only [List.cons_append, alookup]
    split_ifs with h
    · rfl
    · exact ih

lemma graphInv_addEdge {P : Str → Prop} {g : CallGraph} (h : GraphInv P g)
    {caller callee : Str} (hcaller : P caller) (hcallee : P callee) :
    GraphInv P (addEdge g caller callee) := by
  unfold addEdge
  cases hl : alookup g caller with
  | some vs =>
    intro k vs' hk
    rw [alookup_amodify] at hk
    split_ifs at hk with he
    · subst he
      rw [hl] at hk
      injection hk with he'
      refine ⟨hcaller, ?_⟩
      rw [← he']
      intro v hv
      rcases (mem_addUnique _ _ _).mp hv with hv' | rfl
      · exact (h caller vs hl).2 v hv'
      · exact hcallee
    · exact h k vs' hk
  | none =>
    intro k vs' hk
    rw [alookup_append] at hk
    cases hl' : alookup g k with
    | some vs0 =>
      rw [hl'] at hk
      injection hk with he'
      rw [← he']
      exact h k vs0 hl'
    | none =>
      rw [hl'] at hk
      simp only [alookup] at hk
      split_ifs at hk with he
      · subst he
        injection hk with he'
        rw [← he']
        refine ⟨hcaller, ?_⟩
        intro v hv
        rw [List.mem_singleton.mp hv]
        exact hcallee

/-- Every callee contributed by a body line names a value of the bare-name
index. -/
lemma lineCallees_sound (idx : Index) (dyn : Bool) (line : Str) :
    ∀ c ∈ lineCallees idx dyn line,
      ∃ bare fqs, alookup idx bare = some fqs ∧ c ∈ fqs := by
  intro c hc
  unfold lineCallees at hc
  dsimp only at hc
  split_ifs at hc with hskip
  · simp at hc
  · rcases List.mem_append.mp hc with hstat | hdyn
    · unfold staticCallees at hstat
      obtain ⟨ident, hident, hc'⟩ := List.mem_flatMap.mp hstat
      revert hc'
      cases hl : alookup idx (strLower ident) with
      | none => intro hc'; simp at hc'
      | some fqs => intro hc'; exact ⟨strLower ident, fqs, hl, hc'⟩
    · revert hdyn
      cases hsearch : searchPat attemptCallByVar (lstrip line) with
      | none => intro hdyn; simp at hdyn
      | some praw =>
        intro hdyn
        dsimp only at hdyn
        split_ifs at hdyn with hp
        · simp at hdyn
        · cases dyn with
          | true =>
            rw [dynamicTargets_all] at hdyn
            obtain ⟨name, hname, hc'⟩ := List.mem_flatMap.mp hdyn
            cases hl : alookup idx name with
            | none =>
              rw [hl] at hc'
              simp [pySorted] at hc'
            | some fqs =>
              rw [hl] at hc'
              simp only [Option.getD_some] at hc'
              exact ⟨name, fqs, hl, (pySorted_mem _ _).mp hc'⟩
          | false =>
            rw [dynamicTargets_first] at hdyn
            obtain ⟨name, hname, hc'⟩ := List.mem_flatMap.mp hdyn
            cases hl : alookup idx name with
            | none =>
              rw [hl] at hc'
              simp [pySorted] at hc'
            | some fqs =>
              rw [hl] at hc'
              simp only [Option.getD_some] at hc'
              exact ⟨name, fqs, hl, (pySorted_mem _ _).mp (List.mem_of_mem_take hc')⟩

/-- Soundness: `build_call_graph` only mentions names drawn from the registry keys and
the index values. -/
lemma buildCallGraph_inv (reg : Registry) (idx : Index) (dyn : Bool)
    (hidx : IdxInv reg idx) :
    GraphInv (fun n => n ∈ reg.map Prod.fst) (buildCallGraph reg idx dyn) := by
  unfold buildCallGraph
  have hcallee : ∀ line c, c ∈ lineCallees idx dyn line → c ∈ reg.map Prod.fst := by
    intro line c hc
    obtain ⟨bare, fqs, hl, hcf⟩ := lineCallees_sound idx dyn line c hc
    exact hidx bare fqs hl c hcf
  have hfold3 : ∀ (cs : List Str) (g : CallGraph) (caller : Str),
      GraphInv (fun n => n ∈ reg.map Prod.fst) g → caller ∈ reg.map Prod.fst →
      (∀ c ∈ cs, c ∈ reg.map Prod.fst) →
      GraphInv (fun n => n ∈ reg.map Prod.fst)
        (cs.foldl (fun g callee => addEdge g caller callee) g) := by
    intro cs
    induction cs with
    | nil => intro g caller hg _ _; exact hg
    | cons c cs ih =>
      intro g caller hg hcal hcs
      exact ih _ caller (graphInv_addEdge hg hcal (hcs c (by simp)))
        hcal (fun c' h' => hcs c' (by simp [h']))
  have hfold2 : ∀ (ls : List Str) (g : CallGraph) (caller : Str),
      GraphInv (fun n => n ∈ reg.map Prod.fst) g → caller ∈ reg.map Prod.fst →
      GraphInv (fun n => n ∈ reg.map Prod.fst)
        (ls.foldl (fun g line =>
          (lineCallees idx dyn line).foldl (fun g callee => addEdge g caller callee) g) g) := by
    intro ls
    induction ls with
    | nil => intro g caller hg _; exact hg
    | cons l ls ih =>
      intro g caller hg hcal
      exact ih _ caller (hfold3 _ g caller hg hcal (fun c h => hcallee l c h)) hcal
  have hfold1 : ∀ (procs : Registry) (g : CallGraph),
      (∀ e ∈ procs, e.1 ∈ reg.map Prod.fst) →
      GraphInv (fun n => n ∈ reg.map Prod.fst) g →
      GraphInv (fun n => n ∈ reg.map Prod.fst)
        (procs.foldl (fun g e =>
          e.2.bodyLines.foldl (fun g line =>
            (lineCallees idx dyn line).foldl (fun g callee => addEdge g e.1 callee) g) g) g) := by
    intro procs
    induction procs with
    | nil => intro g _ hg; exact hg
    | cons e procs ih =>
      intro g hmem hg
      exact ih _ (fun e' h' => hmem e' (by simp [h']))
        (hfold2 _ g e.1 hg (hmem e (by simp)))
  refine hfold1 reg [] (fun e he => List.mem_map.mpr ⟨e, he, rfl⟩) ?_
  intro k vs hk
  simp [alookup] at hk

/-- Reachable nodes occur in the graph, as a caller key or inside an edge
set. -/
lemma reachIn_in_graph {g : CallGraph} {j : Nat} {n : Str}
    (h : ReachIn g (mainCandidates g) j n) :
    n ∈ g.map Prod.fst ∨ ∃ caller vs, alookup g caller = some vs ∧ n ∈ vs := by
  cases h with
  | seed s hs =>
    exact Or.inl (List.mem_filter.mp hs).1
  | step p c d hp hc =>
    right
    revert hc
    unfold adj
    cases hl : alookup g p with
    | none => intro hc; simp at hc
    | some vs => intro hc; exact ⟨p, vs, hl, hc⟩

/-- C10: Every fully-qualified name occurring in the call graph built by
`build_call_graph` over a first-pass registry — every caller key and every
callee — is a key of that registry, and consequently every key of the depth
map computed by `compute_call_depths_from_main` names a registered
procedure. -/
theorem C10_graph_names_are_registered (files : List FileInput) (excl dyn : Bool) :
    (∀ caller callees,
      alookup (buildCallGraph (firstPassAll excl files).1
          (firstPassAll excl files).2.1 dyn) caller = some callees →
        caller ∈ (firstPassAll excl files).1.map Prod.fst ∧
        ∀ c ∈ callees, c ∈ (firstPassAll excl files).1.map Prod.fst) ∧
    (∀ n d, alookup (computeCallDepthsFromMain
        (buildCallGraph (firstPassAll excl files).1
          (firstPassAll excl files).2.1 dyn)) n = some d →
      n ∈ (firstPassAll excl files).1.map Prod.fst) := by
  have hginv := buildCallGraph_inv (firstPassAll excl files).1
    (firstPassAll excl files).2.1 dyn (firstPassAll_idxInv excl files)
  constructor
  · exact fun caller callees hk => hginv caller callees hk
  · intro n d hk
    obtain ⟨hsound, -⟩ := computeCallDepths_spec
      (buildCallGraph (firstPassAll excl files).1 (firstPassAll excl files).2.1 dyn)
    have hre := (hsound n d hk).1
    rcases reachIn_in_graph hre with hkey | ⟨caller, vs, hl, hv⟩
    · obtain ⟨⟨k, v⟩, hmem, he⟩ := List.mem_map.mp hkey
      obtain ⟨vs, hvs⟩ := Option.isSome_iff_exists.mp
        ((alookup_isSome_iff_mem _ _).mpr hkey)
      exact (hginv n vs hvs).1
    · exact (hginv caller vs hl).2 n hv

/-- Witness for C10: in the two-file project the edge `Main→A` exists and
both ends are registered. -/
theorem C10_graph_names_are_registered_witness :
    (toChars "MainModule::Main") ∈ (firstPassAll true twoFileProject).1.map Prod.fst ∧
    (toChars "Helpers::B") ∈ (firstPassAll true twoFileProject).1.map Prod.fst := by
  constructor
  · exact ((C10_graph_names_are_registered twoFileProject true true).1
      (toChars "MainModule::Main") [toChars "MainModule::A"] (by decide)).1
  · exact (C10_graph_names_are_registered twoFileProject true true).2
      (toChars "Helpers::B") 2 (by decide)

/-- Witness for C7: evaluation on the concrete collections `["di"]`
(allowlisted short token) and `["qx"]` (unknown short token) with an oracle
that rejects everything. -/
theorem C7_variable_name_score_witness :
    variableNameScore (fun _ => false) [toChars "di"] = 1 ∧
    variableNameScore (fun _ => false) [toChars "qx"] = 0 := by
  constructor
  · exact (C7_variable_name_score (fun _ => false) [toChars "di"]).2.1
      (by decide) (by decide)
  · exact (C7_variable_name_score (fun _ => false) [toChars "qx"]).2.2.1
      (by decide) (by decide)

end Rapid
